import Mathlib

/-!
Verification development for the rhetmo speech-analysis pipeline
(`supabase-functions/clever-service.ts`).

The pipeline is embedded shallowly:
* millisecond timestamps are modelled as `ℤ` (JS numbers used as integral
  millisecond offsets);
* fractional arithmetic (words-per-minute, filler rate) is modelled over `ℚ`,
  with `Math.round` as `jsRound` and `Number.toFixed(n)` as round-half-away
  at `n` decimals;
* the external language-model call of each enrichment derivation is abstracted
  by its outcome (`Except` for a thrown call, `Option` for the lenient JSON
  parse of its response), because the network and the JSON text are external
  to the program logic;
* the storage/HTTP glue (Supabase client, CORS, upload) is out of scope.

Definitions keep the source names (`addPunctuationToTokens`,
`splitIntoSegmentsDynamic`, `splitBySentences`, `analyzeSegment`,
`calculateMetrics`, `generateFallbackHighlights`, ...).
-/

namespace Rhetmo

/-- Source interface `Token` (the input rows): text plus start/end millisecond
offsets.  The unused input columns `tags` (always empty on input) and
`created_at` are omitted. -/
structure Token where
  id : String
  conversation_id : String
  start_ms : ℤ
  end_ms : ℤ
  text : String
deriving DecidableEq, Inhabited, Repr

/-- Source union type `'low' | 'medium' | 'high'`. -/
inductive Severity where
  | low
  | medium
  | high
deriving DecidableEq, Inhabited, Repr

/-- Source interface `Tag`.  The open `data?: Record<string, any>` payload is
not modelled; no claim inspects it. -/
structure Tag where
  id : String
  kind : String
  severity : Severity
  label : String
deriving DecidableEq, Inhabited, Repr

/-- Source interface `TokenWithTags`. -/
structure TokenWithTags where
  id : String
  startMs : ℤ
  endMs : ℤ
  text : String
  tags : List Tag
deriving DecidableEq, Inhabited, Repr

/-- Source union `'speech' | 'pause'`. -/
inductive SegKind where
  | speech
  | pause
deriving DecidableEq, Inhabited, Repr

/-- Source interface `SegmentAnalysis`. -/
structure SegmentAnalysis where
  id : String
  startMs : ℤ
  endMs : ℤ
  kind : SegKind
  text : String
  tokens : List TokenWithTags
  tags : List Tag
deriving DecidableEq, Inhabited, Repr

/-- Source pause record `{ start, end, durationMs }`; the `end` field is
renamed `stop` because `end` is a Lean keyword. -/
structure Pause where
  start : ℤ
  stop : ℤ
  durationMs : ℤ
deriving DecidableEq, Inhabited, Repr

/-- Source interface `Issue` (`segmentIndices` is only an intermediate model
field; the stored issue carries ids). -/
structure Issue where
  id : String
  kind : String
  severity : Severity
  message : String
  segmentIds : List String
  tokenIds : List String
deriving DecidableEq, Inhabited, Repr

/-- Source interface `Metrics`. -/
structure Metrics where
  durationSec : ℤ
  totalWords : ℕ
  avgWpm : ℤ
  fillerCount : ℕ
  fillerPerMinute : ℚ
  avgHeartRate : ℤ
  peakHeartRate : ℤ
  movementScore : ℚ
  stressSpeedIndex : ℚ
deriving DecidableEq, Repr

/-- Source union `'strength' | 'improvement'`. -/
inductive HighlightType where
  | strength
  | improvement
deriving DecidableEq, Inhabited, Repr

/-- Source interface `CoachingHighlight`. -/
structure CoachingHighlight where
  type : HighlightType
  title : String
  detail : String
  severity : Option Severity
deriving DecidableEq, Inhabited, Repr

/-- JavaScript `Math.round`: round half toward positive infinity. -/
def jsRound (q : ℚ) : ℤ := (q + 1/2).floor

/-- JavaScript `x.toFixed(1)` then `parseFloat`, idealized over `ℚ`:
round half away from zero at one decimal. -/
def toFixed1 (q : ℚ) : ℚ :=
  (if q < 0 then -(((-q) * 10 + 1/2).floor) else ((q * 10 + 1/2).floor) : ℤ) / 10

/-- JavaScript `x.toFixed(2)` then `parseFloat`, idealized over `ℚ`. -/
def toFixed2 (q : ℚ) : ℚ :=
  (if q < 0 then -(((-q) * 100 + 1/2).floor) else ((q * 100 + 1/2).floor) : ℤ) / 100

/-! ## Punctuator (`addPunctuationToTokens`, source lines 255-298) -/

/-- JavaScript `String.prototype.trim`, written over the character list so
that it evaluates inside the kernel. -/
def jsTrim (s : String) : String :=
  String.mk (((s.toList.dropWhile Char.isWhitespace).reverse.dropWhile
    Char.isWhitespace).reverse)

/-- JavaScript `String.prototype.toLowerCase`, written over the character
list. -/
def jsToLower (s : String) : String :=
  String.mk (s.toList.map Char.toLower)

/-- Split a character list at every separator character, keeping empty
fragments (the semantics of `String.splitOn` for a single-character
separator and of JS `split` with a single-character class). -/
def splitCharsAux (p : Char → Bool) : List Char → List (List Char)
  | [] => [[]]
  | c :: rest =>
      let acc := splitCharsAux p rest
      if p c then [] :: acc
      else
        match acc with
        | [] => [[c]]
        | g :: gs => (c :: g) :: gs

/-- String façade of `splitCharsAux`. -/
def splitChars (p : Char → Bool) (s : String) : List String :=
  (splitCharsAux p s.toList).map String.mk

/-- JavaScript `s.startsWith(pre)`, written over character lists. -/
def strStartsWith (s pre : String) : Bool :=
  pre.toList.isPrefixOf s.toList

/-- Sentence-ending words that trigger a question mark (source `questionWords`). -/
def questionWords : List String :=
  ["what", "where", "when", "why", "how", "who", "which"]

/-- Test of the source regex `/[.,!?;:]$/` (does the last character belong to
the class?). -/
def endsInPunct (s : String) : Bool :=
  match s.toList.getLast? with
  | none => false
  | some c => ['.', ',', '!', '?', ';', ':'].contains c

/-- Source `LONG_PAUSE_MS`. -/
def LONG_PAUSE_MS : ℤ := 800

/-- Source `SHORT_PAUSE_MS`. -/
def SHORT_PAUSE_MS : ℤ := 300

/-- One step of `addPunctuationToTokens` for a token that has a successor:
trim, skip if already punctuated, otherwise punctuate from the gap to the
next token's start. -/
def punctuateMid (t next : Token) : Token :=
  let text := jsTrim t.text
  if endsInPunct text then t
  else
    let gap := next.start_ms - t.end_ms
    if gap ≥ LONG_PAUSE_MS then
      let lowerText := jsToLower text
      if questionWords.contains ((splitChars (fun c => c = ' ') lowerText).getLastD "") then
        { t with text := text ++ "?" }
      else
        { t with text := text ++ "." }
    else if gap ≥ SHORT_PAUSE_MS then
      { t with text := text ++ "," }
    else
      { t with text := text }

/-- One step of `addPunctuationToTokens` for the final token: it gets a
period unless already punctuated. -/
def punctuateLast (t : Token) : Token :=
  let text := jsTrim t.text
  if endsInPunct text then t else { t with text := text ++ "." }

/-- Source `addPunctuationToTokens`: the indexed `map` with lookahead to
`tokens[idx + 1]` is written as a structural recursion carrying the successor. -/
def addPunctuationToTokens : List Token → List Token
  | [] => []
  | [t] => [punctuateLast t]
  | t :: next :: rest => punctuateMid t next :: addPunctuationToTokens (next :: rest)

/-! ## Pass A segmentation (`splitIntoSegmentsDynamic`, source lines 177-250) -/

/-- Source `MAX_SEGMENT_DURATION_MS`. -/
def MAX_SEGMENT_DURATION_MS : ℤ := 25000

/-- Source `LONG_SEGMENT_THRESHOLD_MS`. -/
def LONG_SEGMENT_THRESHOLD_MS : ℤ := 20000

/-- Source `BASE_PAUSE_THRESHOLD_MS`. -/
def BASE_PAUSE_THRESHOLD_MS : ℤ := 2000

/-- Source `REDUCED_PAUSE_THRESHOLD_MS`. -/
def REDUCED_PAUSE_THRESHOLD_MS : ℤ := 1000

/-- The adaptive pause threshold chosen from the running segment duration
(source lines 195-197). -/
def pauseThresholdFor (currentDurationMs : ℤ) : ℤ :=
  if currentDurationMs ≥ LONG_SEGMENT_THRESHOLD_MS then REDUCED_PAUSE_THRESHOLD_MS
  else BASE_PAUSE_THRESHOLD_MS

/-- The loop of `splitIntoSegmentsDynamic`: `segStart` is the running
`segmentStartMs`, `cur` the running `currentSegment`, and the third argument
the tokens not yet consumed.  A split happens after pushing the current token
when the gap to the next token meets the active threshold or the running
duration has reached the hard cap, and only while a next token exists; the
recorded pause is `{start: t.end_ms, end: next.start_ms}` in both the natural
and the synthetic (forced) case, with `durationMs` equal to the gap. -/
def goSplit : ℤ → List Token → List Token → List (List Token) × List Pause
  | _, cur, [] => (if cur.isEmpty then [] else [cur], [])
  | _, cur, [t] => ([cur ++ [t]], [])
  | segStart, cur, t :: next :: rest =>
      let currentDurationMs := t.end_ms - segStart
      let threshold := pauseThresholdFor currentDurationMs
      let gap := next.start_ms - t.end_ms
      if gap ≥ threshold ∨ currentDurationMs ≥ MAX_SEGMENT_DURATION_MS then
        let res := goSplit next.start_ms [] (next :: rest)
        ((cur ++ [t]) :: res.1, ⟨t.end_ms, next.start_ms, gap⟩ :: res.2)
      else
        goSplit segStart (cur ++ [t]) (next :: rest)

/-- Source `splitIntoSegmentsDynamic`. -/
def splitIntoSegmentsDynamic (tokens : List Token) : List (List Token) × List Pause :=
  match tokens with
  | [] => ([], [])
  | t :: _ => goSplit t.start_ms [] tokens

/-- Source `splitIntoSegments` (delegates to the dynamic variant). -/
def splitIntoSegments (tokens : List Token) : List (List Token) × List Pause :=
  splitIntoSegmentsDynamic tokens

/-! ## Sentence split (`splitBySentences`, source lines 428-459) -/

/-- Test of the source regex `/[.!?]$/` (does the last character belong to
the class?). -/
def isSentenceEnd (s : String) : Bool :=
  match s.toList.getLast? with
  | none => false
  | some c => ['.', '!', '?'].contains c

/-- The loop of `splitBySentences`: push each token onto the current segment;
a token ending in a sentence terminator bumps the sentence count, and the
segment is closed once the count reaches `maxS`. -/
def sbsGo (maxS : ℕ) : List Token → ℕ → List Token → List (List Token)
  | cur, _, [] => if cur.isEmpty then [] else [cur]
  | cur, cnt, t :: rest =>
      let cur' := cur ++ [t]
      if isSentenceEnd t.text then
        if cnt + 1 ≥ maxS then cur' :: sbsGo maxS [] 0 rest
        else sbsGo maxS cur' (cnt + 1) rest
      else sbsGo maxS cur' cnt rest

/-- Source `splitBySentences` (the handler calls it with
`maxSentencesPerSegment = 4`). -/
def splitBySentences (tokens : List Token) (maxS : ℕ) : List (List Token) :=
  let segments := sbsGo maxS [] 0 tokens
  if segments.isEmpty then [tokens] else segments

/-! ## Tagger (`analyzeSegment`, source lines 472-679) -/

/-- Source `FILLER_WORDS` (a JS `Set`, modelled by list membership). -/
def FILLER_WORDS : List String :=
  ["um", "uh", "uhm", "umm", "er", "ah", "like", "you know", "so",
   "basically", "actually", "literally", "right", "okay", "well"]

/-- Source `HEDGING_STARTERS`. -/
def HEDGING_STARTERS : List String :=
  ["sort of", "kind of", "i think", "i guess", "i mean",
   "maybe", "perhaps", "probably", "might", "could be"]

/-- Source normalization `token.text.toLowerCase().replace(/[.,!?;:]/g, '')`. -/
def cleanWord (s : String) : String :=
  String.mk ((s.toList.map Char.toLower).filter
    (fun c => !(['.', ',', '!', '?', ';', ':'].contains c)))

/-- The `fillerWords` accumulator of `analyzeSegment`: every token whose
normalized text is a filler word, with its index. -/
def fillerHits (segmentTokens : List Token) : List (String × ℕ) :=
  segmentTokens.enum.filterMap (fun p =>
    let word := cleanWord p.2.text
    if FILLER_WORDS.contains word then some (word, p.1) else none)

/-- The `hedging` accumulator of `analyzeSegment`: for every token with a
successor, the first hedging phrase that prefixes the normalized two-word
window, spanning `wordCount` tokens from its index. -/
def hedgingHits (segmentTokens : List Token) : List (String × ℕ × ℕ) :=
  segmentTokens.enum.filterMap (fun p =>
    match segmentTokens.get? (p.1 + 1) with
    | none => none
    | some nextTk =>
        let twoWords := cleanWord p.2.text ++ " " ++ cleanWord nextTk.text
        match HEDGING_STARTERS.find? (fun h => strStartsWith twoWords h) with
        | none => none
        | some hedge =>
            some (hedge, p.1, p.1 + (splitChars (fun c => c = ' ') hedge).length - 1))

/-- Pace classification of `analyzeSegment` (status string and severity). -/
def paceOf (wpm : ℚ) : String × Severity :=
  if wpm < 110 then ("slow", Severity.medium)
  else if wpm > 200 then ("very_fast", Severity.high)
  else if wpm > 160 then ("fast", Severity.medium)
  else ("normal", Severity.low)

/-- Source `analyzeSegment`: rule-based per-segment analysis.  The constant
`analysis` fields (`grammar = []`, `structure.quality` fixed, `goodElements =
[]`, `clarity.score = 'clear'`) make the grammar/structure/good-emphasis/
unclear-point branches unreachable; they are kept below guarded by the same
(constant) conditions.  `wpm.toFixed(0)` inside the pace label is modelled by
`jsRound`. -/
def analyzeSegment (segmentTokens : List Token) (segmentIndex : ℕ)
    (conversationId : String) : SegmentAnalysis :=
  let text := String.intercalate " " (segmentTokens.map (·.text))
  let startMs := (segmentTokens.headD default).start_ms
  let endMs := (segmentTokens.getLastD default).end_ms
  let durationSec : ℚ := ((endMs - startMs : ℤ) : ℚ) / 1000
  let wpm : ℚ := if durationSec > 0 then ((segmentTokens.length : ℚ) / durationSec) * 60 else 0
  let fillers := fillerHits segmentTokens
  let hedges := hedgingHits segmentTokens
  let pace := paceOf wpm
  let structureQuality := "No specific issues detected"
  let clarityScore := "clear"
  let goodElements : List String := []
  let segmentId := "seg-" ++ conversationId ++ "-" ++ toString segmentIndex
  let tokenWithTags : List TokenWithTags := segmentTokens.enum.map (fun p =>
    let fillerTags : List Tag := (fillers.filter (fun f => f.2 = p.1)).map (fun f =>
      { id := p.2.id ++ "-filler", kind := "filler", severity := Severity.medium,
        label := "Filler word: " ++ f.1 })
    let hedgeTags : List Tag := (hedges.filter (fun h => h.2.1 ≤ p.1 ∧ p.1 ≤ h.2.2)).map (fun h =>
      { id := p.2.id ++ "-hedging", kind := "hedging", severity := Severity.medium,
        label := "Hedging phrase: " ++ h.1 })
    { id := p.2.id, startMs := p.2.start_ms, endMs := p.2.end_ms, text := p.2.text,
      tags := fillerTags ++ hedgeTags })
  let totalFillers : ℕ := tokenWithTags.foldl
    (fun sum t => sum + (t.tags.filter (fun tag => tag.kind = "filler")).length) 0
  let paceSuffix :=
    if pace.1 = "very_fast" then " - way too fast! Target 110-160"
    else if pace.1 = "fast" then " - slightly fast, target 110-160"
    else if pace.1 = "slow" then " - too slow, target 110-160"
    else ""
  let segmentTags : List Tag :=
    (if pace.1 = "very_fast" ∨ pace.1 = "fast" ∨ pace.1 = "slow" then
      [{ id := segmentId ++ "-pace", kind := pace.1, severity := pace.2,
         label := "Segment spoken at ~" ++ toString (jsRound wpm) ++ " WPM" ++ paceSuffix }]
     else [])
    ++ (if totalFillers > 2 then
      [{ id := segmentId ++ "-filler", kind := "filler",
         severity := if totalFillers > 4 then Severity.high else Severity.medium,
         label := "Multiple filler words detected (" ++ toString totalFillers ++ ")" }]
     else [])
    ++ (if clarityScore = "unclear" ∨ clarityScore = "very_unclear" then
      [{ id := segmentId ++ "-unclear", kind := "unclear_point",
         severity := if clarityScore = "very_unclear" then Severity.high else Severity.medium,
         label := "Unclear messaging" }]
     else [])
    ++ (if hedges.length > 1 then
      [{ id := segmentId ++ "-hedging", kind := "hedging",
         severity := if hedges.length > 2 then Severity.high else Severity.medium,
         label := "Multiple hedging phrases weaken your message (" ++ toString hedges.length
           ++ " instances)" }]
     else [])
    ++ (if structureQuality ≠ "No specific issues detected" then
      [{ id := segmentId ++ "-structure", kind := "structure", severity := Severity.low,
         label := structureQuality }]
     else [])
    ++ (goodElements.enum.map (fun g =>
      { id := segmentId ++ "-good-" ++ toString g.1, kind := "good_emphasis",
        severity := Severity.low, label := g.2 }))
  { id := segmentId, startMs := startMs, endMs := endMs, kind := SegKind.speech,
    text := text, tokens := tokenWithTags, tags := segmentTags }

/-! ## Analysis assembler (handler lines 1117-1152) -/

/-- Pause-segment construction of the handler: one `pause` tag whose severity
is `medium` for pauses longer than 4000 ms, `low` otherwise. -/
def mkPauseSegment (conversationId : String) (blockIdx : ℕ) (pause : Pause) : SegmentAnalysis :=
  let severity : Severity := if pause.durationMs > 4000 then Severity.medium else Severity.low
  { id := "pause-" ++ conversationId ++ "-" ++ toString blockIdx,
    startMs := pause.start, endMs := pause.stop, kind := SegKind.pause, text := "",
    tokens := [],
    tags := [{ id := "pause-" ++ conversationId ++ "-" ++ toString blockIdx ++ "-tag",
               kind := "pause", severity := severity,
               label := "Pause" }] }

/-- The flat analysis of content segments with the running `globalIdx` of the
handler (lines 1095-1113). -/
def analyzeListFrom (conversationId : String) : ℕ → List (List Token) → List SegmentAnalysis
  | _, [] => []
  | gi, p :: ps => analyzeSegment p gi conversationId :: analyzeListFrom conversationId (gi + 1) ps

/-- The reconstruction loop of the handler (lines 1121-1152): per pause-block,
emit its analyzed content segments, then the pause separating it from the next
block while pauses remain. -/
def interleave (conversationId : String) :
    ℕ → ℕ → List (List (List Token)) → List Pause → List SegmentAnalysis
  | _, _, [], _ => []
  | gi, bi, cs :: blocks, pauses =>
      analyzeListFrom conversationId gi cs ++
      match pauses with
      | [] => interleave conversationId (gi + cs.length) (bi + 1) blocks []
      | p :: ps => mkPauseSegment conversationId bi p :: interleave conversationId (gi + cs.length) (bi + 1) blocks ps

/-- The deterministic part of the handler pipeline producing `allSegments`:
punctuate, pause-split, sentence-split each block with a maximum of 4
sentences, analyze, and interleave the pause segments. -/
def analyzePipeline (conversationId : String) (tokens : List Token) : List SegmentAnalysis :=
  let punctuated := addPunctuationToTokens tokens
  let r := splitIntoSegmentsDynamic punctuated
  interleave conversationId 0 0 (r.1.map (fun b => splitBySentences b 4)) r.2

/-- The `speechSegments` list of the handler (the analyzed content segments,
without pause segments), in global-index order. -/
def pipelineSpeechSegments (conversationId : String) (tokens : List Token) :
    List SegmentAnalysis :=
  let punctuated := addPunctuationToTokens tokens
  let r := splitIntoSegmentsDynamic punctuated
  analyzeListFrom conversationId 0 ((r.1.map (fun b => splitBySentences b 4)).flatten)

/-- The pause list the handler passes to `calculateMetrics`. -/
def pipelinePauses (tokens : List Token) : List Pause :=
  (splitIntoSegmentsDynamic (addPunctuationToTokens tokens)).2

/-! ## Metrics calculator (`calculateMetrics`, source lines 936-995) -/

/-- Source `calculateMetrics`.  The `pauses` parameter is unused, exactly as
in the source.  The three `Math.random()` draws behind the placeholder
biometric fields are passed in as `r1 r2 r3`. -/
def calculateMetrics (segments : List SegmentAnalysis) (pauses : List Pause)
    (r1 r2 r3 : ℚ) : Metrics :=
  let totalWords : ℕ := segments.foldl (fun sum s => sum + s.tokens.length) 0
  let totalDurationMs : ℤ :=
    match segments with
    | [] => 0
    | s0 :: _ => (segments.getLastD s0).endMs - s0.startMs
  let durationSec : ℚ := (totalDurationMs : ℚ) / 1000
  let speakingDurationMs : ℤ := segments.foldl (fun sum s => sum + (s.endMs - s.startMs)) 0
  let avgWpm : ℚ :=
    if speakingDurationMs > 0 then ((totalWords : ℚ) / ((speakingDurationMs : ℚ) / 1000)) * 60
    else 0
  let fillerCount : ℕ := segments.foldl (fun acc s =>
    s.tokens.foldl (fun a t => a + (t.tags.filter (fun tag => tag.kind = "filler")).length) acc) 0
  let fillerPerMinute : ℚ :=
    if durationSec > 0 then ((fillerCount : ℚ) / durationSec) * 60 else 0
  let fastSegments : ℕ :=
    (segments.filter (fun s => s.tags.any (fun t => t.kind = "fast"))).length
  let stressSpeedIndex : ℚ :=
    if segments.length > 0 then (fastSegments : ℚ) / (segments.length : ℚ) else 0
  let movementScore : ℚ := 35/100 + r1 * (3/10)
  let avgHeartRate : ℤ := jsRound (75 + r2 * 20)
  let peakHeartRate : ℤ := jsRound (120 + r3 * 25)
  { durationSec := jsRound durationSec,
    totalWords := totalWords,
    avgWpm := jsRound avgWpm,
    fillerCount := fillerCount,
    fillerPerMinute := toFixed1 fillerPerMinute,
    avgHeartRate := avgHeartRate,
    peakHeartRate := peakHeartRate,
    movementScore := toFixed2 movementScore,
    stressSpeedIndex := toFixed2 stressSpeedIndex }

/-- The handler's metrics value: `calculateMetrics(speechSegments, pauses)`. -/
def pipelineMetrics (conversationId : String) (tokens : List Token) (r1 r2 r3 : ℚ) : Metrics :=
  calculateMetrics (pipelineSpeechSegments conversationId tokens) (pipelinePauses tokens) r1 r2 r3

/-! ## Enrichment derivations (source lines 683-933) and their fan-in

The model call of each derivation is abstracted by its outcome:
`Except.error e` models a rejected `callOpenAI` promise, `Except.ok none`
models a response whose lenient JSON extraction fails, and
`Except.ok (some v)` models a successfully parsed payload.  Prompt strings
are not modelled since they only feed the abstracted call. -/

/-- JavaScript `s || dflt` for a possibly-missing string field (both a missing
field and the empty string are falsy). -/
def jsStringOr (s : Option String) (dflt : String) : String :=
  match s with
  | none => dflt
  | some v => if v = "" then dflt else v

/-- The shape of one entry of the issues JSON array, before defaulting. -/
structure RawIssue where
  kind : Option String
  severity : Option Severity
  message : Option String
  segmentIndices : Option (List ℤ)
  tokenIds : Option (List String)
deriving DecidableEq, Inhabited, Repr

/-- The shape of one entry of the coaching-highlights JSON payload, before
defaulting. -/
structure RawHighlight where
  type : Option HighlightType
  title : Option String
  detail : Option String
  severity : Option Severity
deriving DecidableEq, Inhabited, Repr

/-- Source `generateOverallIssues` (lines 683-728).  The `await callOpenAI`
has no surrounding try/catch, so a rejected call propagates (`Except.error`);
the inner try/catch around the JSON extraction turns an unparseable response
into `issuesData = []`. -/
def generateOverallIssues (segments : List SegmentAnalysis) (conversationId : String)
    (call : Except String (Option (List RawIssue))) : Except String (List Issue) :=
  match call with
  | Except.error e => Except.error e
  | Except.ok none => Except.ok []
  | Except.ok (some issuesData) =>
      Except.ok (issuesData.enum.map (fun p =>
        { id := "issue-" ++ conversationId ++ "-" ++ toString p.1,
          kind := jsStringOr p.2.kind "general",
          severity := p.2.severity.getD Severity.medium,
          message := jsStringOr p.2.message "Review this section",
          segmentIds := (p.2.segmentIndices.getD []).map
            (fun i => "seg-" ++ conversationId ++ "-" ++ toString i),
          tokenIds := p.2.tokenIds.getD [] }))

/-- JavaScript `text.split(/\s+/)`, with empty fragments dropped (the source
only ever counts or rejoins the fragments). -/
def splitWs (s : String) : List String :=
  (splitChars Char.isWhitespace s).filter (fun w => w ≠ "")

/-- Capitalization step of `generateFallbackTitle`:
`w.charAt(0).toUpperCase() + w.slice(1).toLowerCase()`. -/
def capitalizeWord (w : String) : String :=
  match w.toList with
  | [] => ""
  | c :: cs => String.mk (c.toUpper :: cs.map Char.toLower)

/-- Source `generateFallbackTitle` (lines 918-933). -/
def generateFallbackTitle (text : String) : String :=
  let letters := String.mk (text.toList.filter (fun c => c.isAlpha ∨ c.isWhitespace))
  let words := ((splitChars Char.isWhitespace letters).filter (fun w => w.length > 3)).take 4
  if words.length ≥ 2 then
    String.intercalate " " ((words.take 3).map capitalizeWord) ++ "..."
  else "Untitled Session"

/-- Test for the quote characters of the source regex `/^["']|["']$/`. -/
def isQuoteChar (c : Char) : Bool := c = Char.ofNat 34 ∨ c = Char.ofNat 39

/-- The title cleanup `parsed.title.replace(/^["']|["']$/g, '')`: strip one
leading and one trailing quote character. -/
def stripEdgeQuotes (s : String) : String :=
  let l := s.toList
  let l1 := match l with
    | [] => []
    | c :: rest => if isQuoteChar c then rest else l
  let l2 := match l1.getLast? with
    | none => l1
    | some c => if isQuoteChar c then l1.dropLast else l1
  String.mk l2

/-- Source `generateSessionTitle` (lines 871-915): the whole model call sits
inside try/catch, so both a rejected call and an unparseable response fall
back to `generateFallbackTitle`; a very short transcript short-circuits to
`'Untitled Session'` before any call. -/
def generateSessionTitle (segments : List SegmentAnalysis) (metrics : Metrics)
    (call : Except String (Option String)) : String :=
  let allText := String.intercalate " " (segments.map (·.text))
  let truncatedText := String.intercalate " " ((splitWs allText).take 100)
  if truncatedText = "" ∨ truncatedText.length < 20 then "Untitled Session"
  else
    match call with
    | Except.error _ => generateFallbackTitle truncatedText
    | Except.ok none => generateFallbackTitle truncatedText
    | Except.ok (some title0) =>
        if title0.length > 0 then
          let title1 := jsTrim (stripEdgeQuotes title0)
          if title1.length > 50 then String.mk (title1.toList.take 47) ++ "..." else title1
        else generateFallbackTitle truncatedText

/-- Severity ordering of the fallback-highlight issue sort
(`{high: 0, medium: 1, low: 2}`). -/
def severityRank (s : Severity) : ℕ :=
  match s with
  | Severity.high => 0
  | Severity.medium => 1
  | Severity.low => 2

/-- Insertion step of the severity sort. -/
def insertBySeverity (i : Issue) : List Issue → List Issue
  | [] => [i]
  | j :: js =>
      if severityRank i.severity ≤ severityRank j.severity then i :: j :: js
      else j :: insertBySeverity i js

/-- The `issues.sort((a, b) => order[a.severity] - order[b.severity])` of
`generateFallbackHighlights`, as an insertion sort. -/
def sortBySeverity (issues : List Issue) : List Issue :=
  issues.foldr insertBySeverity []

/-- JavaScript `kind.replace('_', ' ')`: replace the first underscore only. -/
def replaceFirstUnderscore (s : String) : String :=
  match s.splitOn "_" with
  | [] => s
  | [x] => x
  | x :: y :: rest => x ++ " " ++ String.intercalate "_" (y :: rest)

/-- Source `generateFallbackHighlights` (lines 806-867): deterministic
highlights from the metrics pace band and filler rate, topped up with the
most severe issue when no improvement was produced. -/
def generateFallbackHighlights (metrics : Metrics) (issues : List Issue) :
    List CoachingHighlight :=
  let paceHighlights : List CoachingHighlight :=
    if 110 ≤ metrics.avgWpm ∧ metrics.avgWpm ≤ 160 then
      [{ type := HighlightType.strength, title := "Good speaking pace",
         detail := "Your average pace of " ++ toString metrics.avgWpm
           ++ " WPM is in the ideal range for clear communication.",
         severity := none }]
    else if metrics.avgWpm > 160 then
      [{ type := HighlightType.improvement, title := "Slow down your pace",
         detail := "At " ++ toString metrics.avgWpm
           ++ " WPM, you are speaking faster than ideal (110-160 WPM). Try adding brief pauses between key points.",
         severity := some (if metrics.avgWpm > 200 then Severity.high else Severity.medium) }]
    else if metrics.avgWpm < 110 then
      [{ type := HighlightType.improvement, title := "Speed up your pace",
         detail := "At " ++ toString metrics.avgWpm
           ++ " WPM, you are speaking slower than ideal (110-160 WPM). Try to maintain more energy and momentum.",
         severity := some Severity.low }]
    else []
  let fillerHighlights : List CoachingHighlight :=
    if metrics.fillerPerMinute < 2 then
      [{ type := HighlightType.strength, title := "Minimal filler words",
         detail := "You kept filler words to a minimum, which makes your speech sound confident and polished.",
         severity := none }]
    else if metrics.fillerPerMinute > 3 then
      [{ type := HighlightType.improvement, title := "Reduce filler words",
         detail := "You used " ++ toString metrics.fillerCount
           ++ " filler words. Try replacing them with silent pauses for more impact.",
         severity := some (if metrics.fillerPerMinute > 5 then Severity.high else Severity.medium) }]
    else []
  let highlights := paceHighlights ++ fillerHighlights
  if (highlights.filter (fun h => h.type = HighlightType.improvement)).length = 0
      ∧ issues ≠ [] then
    match sortBySeverity issues with
    | [] => highlights
    | topIssue :: _ =>
        highlights ++
          [{ type := HighlightType.improvement,
             title := replaceFirstUnderscore topIssue.kind,
             detail := topIssue.message,
             severity := some topIssue.severity }]
  else highlights

/-- Source `generateCoachingHighlights` (lines 732-803): the whole body sits
inside try/catch and both failure modes fall back to
`generateFallbackHighlights`. -/
def generateCoachingHighlights (segments : List SegmentAnalysis) (metrics : Metrics)
    (issues : List Issue) (conversationId : String)
    (call : Except String (Option (List RawHighlight))) : List CoachingHighlight :=
  match call with
  | Except.error _ => generateFallbackHighlights metrics issues
  | Except.ok none => generateFallbackHighlights metrics issues
  | Except.ok (some hs) =>
      hs.map (fun h =>
        { type := h.type.getD HighlightType.improvement,
          title := jsStringOr h.title "General feedback",
          detail := h.detail.getD "",
          severity := h.severity })

/-- The `Promise.all` fan-in of the handler (lines 1167-1171): the three
derivations are joined, a rejection of any branch rejects the whole run, and
the coaching derivation is fed an empty issues list (the source passes `[]`
because the branches run in parallel). -/
def runEnrichment (conversationId : String) (speechSegments : List SegmentAnalysis)
    (metrics : Metrics)
    (issuesCall : Except String (Option (List RawIssue)))
    (titleCall : Except String (Option String))
    (highlightsCall : Except String (Option (List RawHighlight))) :
    Except String (List Issue × String × List CoachingHighlight) := do
  let issues ← generateOverallIssues speechSegments conversationId issuesCall
  let title := generateSessionTitle speechSegments metrics titleCall
  let highlights := generateCoachingHighlights speechSegments metrics [] conversationId highlightsCall
  return (issues, title, highlights)

/-! ## Specification-side definitions

These restate quantities in the spec's words, independently of the
accumulator style of the source, for use in theorem statements. -/

/-- Spec: sum of per-segment speaking durations in milliseconds. -/
def speakingDurationMsOf (segments : List SegmentAnalysis) : ℤ :=
  (segments.map (fun s => s.endMs - s.startMs)).sum

/-- Spec: wall-clock session duration (last segment `endMs` minus first
segment `startMs`) in milliseconds. -/
def wallClockMsOf (segments : List SegmentAnalysis) : ℤ :=
  match segments with
  | [] => 0
  | s0 :: _ => (segments.getLastD s0).endMs - s0.startMs

/-- Spec: total word count (sum of token counts over segments). -/
def totalWordsOf (segments : List SegmentAnalysis) : ℕ :=
  (segments.map (fun s => s.tokens.length)).sum

/-- Spec: number of token-level tags with kind `filler`, summed over all
tokens of all segments. -/
def countFillerTags (segments : List SegmentAnalysis) : ℕ :=
  (segments.map (fun s =>
    (s.tokens.map (fun t => (t.tags.filter (fun tag => tag.kind = "filler")).length)).sum)).sum

/-- Spec: the token span of a block (last token `endMs` minus first token
`startMs`). -/
def tokenSpanMs (b : List Token) : ℤ :=
  (b.getLastD default).end_ms - (b.headD default).start_ms

/-- Spec (Pass A, "splits exactly when"): inside a block headed by `h`, no
adjacent pair of tokens satisfies the split condition — the gap stays below
the active threshold and the running duration stays below the hard cap. -/
def interPairsOk (h : Token) : List Token → Prop
  | t :: u :: rest =>
      (u.start_ms - t.end_ms < pauseThresholdFor (t.end_ms - h.start_ms)
        ∧ t.end_ms - h.start_ms < MAX_SEGMENT_DURATION_MS)
      ∧ interPairsOk h (u :: rest)
  | _ => True

/-- Spec: a produced block contains no interior split point. -/
def blockOk : List Token → Prop
  | [] => True
  | h :: rest => interPairsOk h (h :: rest)

/-- Spec (Pass A): the blocks and pauses alternate correctly — there is
exactly one pause between adjacent blocks, its endpoints are the previous
block's last token end and the next block's first token start, its
`durationMs` is their difference, and the boundary satisfies the split
condition (threshold met, or hard cap reached). -/
def chainLinked : List (List Token) → List Pause → Prop
  | [], [] => True
  | [_], [] => True
  | b :: b' :: bs, p :: ps =>
      (p.start = (b.getLastD default).end_ms
        ∧ p.stop = (b'.headD default).start_ms
        ∧ p.durationMs = (b'.headD default).start_ms - (b.getLastD default).end_ms
        ∧ ((b'.headD default).start_ms - (b.getLastD default).end_ms
              ≥ pauseThresholdFor ((b.getLastD default).end_ms - (b.headD default).start_ms)
            ∨ (b.getLastD default).end_ms - (b.headD default).start_ms
              ≥ MAX_SEGMENT_DURATION_MS))
      ∧ chainLinked (b' :: bs) ps
  | _, _ => False

/-- Spec: tokens are well formed — each token starts no later than it ends,
and consecutive tokens do not overlap. -/
def tokensWellFormed (tokens : List Token) : Prop :=
  (∀ t ∈ tokens, t.start_ms ≤ t.end_ms)
  ∧ tokens.Chain' (fun a b => a.end_ms ≤ b.start_ms)

/-- Spec (amended C2): a segment list covers the window from `lo` to `hi` in
the weak sense — non-empty, starting at `lo`, ending at `hi`, with
non-overlapping consecutive segments and non-negative segment extents. -/
def segsCover (lo hi : ℤ) (S : List SegmentAnalysis) : Prop :=
  S ≠ []
  ∧ S.head?.map (fun s => s.startMs) = some lo
  ∧ S.getLast?.map (fun s => s.endMs) = some hi
  ∧ S.Chain' (fun a b => a.endMs ≤ b.startMs)
  ∧ ∀ s ∈ S, s.startMs ≤ s.endMs

/-- Invariant carried through the split loop: the running `segmentStartMs` is
the start of the block under construction (the pending tokens, or the next
token when none are pending), and the pending tokens together with the next
token contain no interior split point. -/
def goSplitPre (s : ℤ) (cur rest : List Token) : Prop :=
  match cur, rest with
  | [], r :: _ => s = r.start_ms
  | c :: _, r :: _ => s = c.start_ms ∧ interPairsOk c (cur ++ [r])
  | _, [] => True

/-- Spec: number of tokens of a block whose text ends in a sentence
terminator. -/
def terminatorCount (b : List Token) : ℕ :=
  (b.filter (fun t => isSentenceEnd t.text)).length

/-! ## Concrete inputs used by counterexamples and witnesses -/

/-- Shorthand for building an input token row. -/
def tok (n : ℕ) (s e : ℤ) (txt : String) : Token :=
  { id := "t" ++ toString n, conversation_id := "conv", start_ms := s, end_ms := e, text := txt }

/-- A single token whose text ends in a comma. -/
def lastCommaToks : List Token := [tok 0 0 100 "well,"]

/-- A token with surrounding whitespace followed by a near-adjacent token. -/
def trimToks : List Token := [tok 0 0 100 "hi ", tok 1 200 300 "there."]

/-- Three tokens whose first block is force-split only after its duration has
passed the 25 s cap, giving a 26 s span. -/
def capToks : List Token :=
  [tok 0 0 24000 "a", tok 1 24500 26000 "b", tok 2 27000 27500 "c"]

/-- The first block Pass A produces on `capToks`. -/
def capBlock : List Token := [tok 0 0 24000 "a", tok 1 24500 26000 "b"]

/-- Thirty contiguous one-second tokens: a 30-second block with no pause at
all, which must force-split at the 25 s cap. -/
def thirtySecToks : List Token :=
  (List.range 30).map (fun k => tok k (1000 * k) (1000 * k + 1000) "w")

/-- Twenty-six contiguous one-second tokens: the force split at 25 s records
a zero-duration synthetic pause. -/
def forceToks : List Token :=
  (List.range 26).map (fun k => tok k (1000 * k) (1000 * k + 1000) "w")

/-- One pause-block of five short sentences: the sentence split closes a
segment after four terminators, leaving a timeline gap (1500 to 1600 ms)
between two speech segments with no pause segment in between. -/
def gapToks : List Token :=
  [tok 0 0 100 "a.", tok 1 1000 1100 "b.", tok 2 1200 1300 "c.",
   tok 3 1400 1500 "d.", tok 4 1600 1700 "e"]

/-- An eight-token block with four early sentence terminators: fewer than 15
tokens, yet the sentence split still cuts it. -/
def eightToks : List Token :=
  [tok 0 0 100 "a.", tok 1 200 300 "b.", tok 2 400 500 "c.", tok 3 600 700 "d.",
   tok 4 800 900 "e", tok 5 1000 1100 "f", tok 6 1200 1300 "g", tok 7 1400 1500 "h"]

/-- Two tokens separated by a 2.3 s pause: the pipeline emits one pause
segment between two speech segments. -/
def pauseToks : List Token := [tok 0 0 200 "ok", tok 1 2500 2900 "um"]

/-- A concrete metrics value with `fillerPerMinute > 3` (and `avgWpm`
outside 110-160), the regime in which the spec promises a non-empty fallback
issues list. -/
def fillerHeavyMetrics : Metrics :=
  { durationSec := 60, totalWords := 100, avgWpm := 100, fillerCount := 4,
    fillerPerMinute := 4, avgHeartRate := 80, peakHeartRate := 120,
    movementScore := 1/2, stressSpeedIndex := 0 }

/-! ## Helper lemmas -/

/-- Folding `acc + f a` over a list equals the initial value plus the sum of
the images (the accumulator style of the source's `reduce`/`forEach`). -/
theorem foldl_add_eq {M α : Type} [AddCommMonoid M] (f : α → M) (l : List α) (n : M) :
    l.foldl (fun acc a => acc + f a) n = n + (l.map f).sum := by
  induction l generalizing n with
  | nil => simp
  | cons a t ih => simp [ih, add_assoc]

/-- The nested `forEach` accumulation of `calculateMetrics` computes the
token-tag filler count of the spec. -/
theorem fillerCount_foldl_eq (segs : List SegmentAnalysis) (n : ℕ) :
    segs.foldl (fun acc s => s.tokens.foldl
      (fun a t => a + (t.tags.filter (fun tag => tag.kind = "filler")).length) acc) n
    = n + countFillerTags segs := by
  induction segs generalizing n with
  | nil => simp [countFillerTags]
  | cons s t ih =>
      simp only [List.foldl_cons]
      rw [ih, foldl_add_eq]
      simp [countFillerTags, add_assoc]

/-- The sentence-split loop loses no token: the pieces flatten back to the
input. -/
theorem sbsGo_flatten (m : ℕ) (rest : List Token) : ∀ (cur : List Token) (cnt : ℕ),
    (sbsGo m cur cnt rest).flatten = cur ++ rest := by
  induction rest with
  | nil => intro cur cnt; cases cur <;> simp [sbsGo]
  | cons t rest ih =>
      intro cur cnt
      simp only [sbsGo]
      split_ifs <;> simp [ih]

/-- Every piece produced by the sentence-split loop is non-empty. -/
theorem sbsGo_ne (m : ℕ) (rest : List Token) : ∀ (cur : List Token) (cnt : ℕ),
    ∀ p ∈ sbsGo m cur cnt rest, p ≠ [] := by
  induction rest with
  | nil =>
      intro cur cnt p hp
      cases cur with
      | nil => simp [sbsGo] at hp
      | cons c cs =>
          simp [sbsGo] at hp
          simp [hp]
  | cons t rest ih =>
      intro cur cnt p hp
      simp only [sbsGo] at hp
      split_ifs at hp with h1 h2
      · rcases List.mem_cons.mp hp with rfl | hp'
        · simp
        · exact ih [] 0 p hp'
      · exact ih (cur ++ [t]) (cnt + 1) p hp
      · exact ih (cur ++ [t]) cnt p hp

/-- Terminator count of a cons. -/
theorem terminatorCount_cons (t : Token) (rest : List Token) :
    terminatorCount (t :: rest)
      = (if isSentenceEnd t.text then 1 else 0) + terminatorCount rest := by
  by_cases ht : isSentenceEnd t.text <;>
    simp [terminatorCount, List.filter_cons, ht, Nat.add_comm]

/-- Terminator count of appending one token. -/
theorem terminatorCount_append_one (cur : List Token) (t : Token) :
    terminatorCount (cur ++ [t])
      = terminatorCount cur + (if isSentenceEnd t.text then 1 else 0) := by
  by_cases ht : isSentenceEnd t.text <;>
    simp [terminatorCount, List.filter_append, List.filter_cons, ht]

/-- When the pending count plus the remaining terminators stay below the
maximum, the sentence-split loop never closes a segment. -/
theorem sbsGo_single (m : ℕ) (rest : List Token) : ∀ (cur : List Token) (cnt : ℕ),
    cnt + terminatorCount rest < m →
    sbsGo m cur cnt rest = if cur ++ rest = [] then [] else [cur ++ rest] := by
  induction rest with
  | nil =>
      intro cur cnt h
      cases cur <;> simp [sbsGo]
  | cons t rest ih =>
      intro cur cnt h
      rw [terminatorCount_cons] at h
      simp only [sbsGo]
      by_cases ht : isSentenceEnd t.text
      · rw [if_pos ht]
        rw [if_neg (by simp [ht] at h; omega)]
        rw [ih (cur ++ [t]) (cnt + 1) (by simp [ht] at h; omega)]
        simp
      · rw [if_neg ht]
        rw [ih (cur ++ [t]) cnt (by simp [ht] at h; omega)]
        simp

/-- Terminator bound for the pieces of the sentence-split loop: with a sound
pending count below the maximum, every produced piece has at most `m`
terminator-ending tokens. -/
theorem sbsGo_termCount_le (m : ℕ) (hm : 0 < m) (rest : List Token) :
    ∀ (cur : List Token) (cnt : ℕ), terminatorCount cur = cnt → cnt < m →
    ∀ p ∈ sbsGo m cur cnt rest, terminatorCount p ≤ m := by
  induction rest with
  | nil =>
      intro cur cnt hc hlt p hp
      cases cur with
      | nil => simp [sbsGo] at hp
      | cons c cs =>
          simp [sbsGo] at hp
          rw [hp, hc]
          omega
  | cons t rest ih =>
      intro cur cnt hc hlt p hp
      simp only [sbsGo] at hp
      split_ifs at hp with h1 h2
      · rcases List.mem_cons.mp hp with rfl | hp'
        · rw [terminatorCount_append_one, hc, if_pos h1]
          omega
        · exact ih [] 0 (by simp [terminatorCount]) hm p hp'
      · exact ih (cur ++ [t]) (cnt + 1)
          (by rw [terminatorCount_append_one, hc, if_pos h1]) (by omega) p hp
      · exact ih (cur ++ [t]) cnt
          (by rw [terminatorCount_append_one, hc, if_neg h1]; omega) hlt p hp

/-- The splitter returns at least one piece. -/
theorem splitBySentences_ne (l : List Token) (m : ℕ) :
    splitBySentences l m ≠ [] := by
  unfold splitBySentences
  by_cases h : (sbsGo m [] 0 l).isEmpty <;> simp [h]
  intro hcon
  rw [hcon] at h
  simp at h

/-- The flatten of the splitter result is the input. -/
theorem splitBySentences_flatten (l : List Token) (m : ℕ) :
    (splitBySentences l m).flatten = l := by
  unfold splitBySentences
  by_cases h : (sbsGo m [] 0 l).isEmpty <;> simp [h, sbsGo_flatten]

/-- Projection of the filler count out of `calculateMetrics`. -/
theorem calculateMetrics_fillerCount (segs : List SegmentAnalysis) (ps : List Pause)
    (r1 r2 r3 : ℚ) :
    (calculateMetrics segs ps r1 r2 r3).fillerCount = countFillerTags segs := by
  show segs.foldl (fun acc s => s.tokens.foldl
      (fun a t => a + (t.tags.filter (fun tag => tag.kind = "filler")).length) acc) 0
    = countFillerTags segs
  rw [fillerCount_foldl_eq]
  omega

/-! ## C10 — the local fallback highlight generator is total -/

/-- Claim C10: for every `Metrics` input the local fallback highlight generator
returns a non-empty list — the three `avgWpm` bands (below 110, within
110-160, above 160) are exhaustive, so a pace-related strength or improvement
is always produced. -/
theorem generateFallbackHighlights_nonempty (m : Metrics) (issues : List Issue) :
    generateFallbackHighlights m issues ≠ [] := by
  unfold generateFallbackHighlights
  cases h : sortBySeverity issues <;> split_ifs <;> simp_all <;> split <;> simp

/-! ## C1 — enrichment fan-in when the issues derivation fails -/

/-- Claim C1, counterexample: with `fillerPerMinute > 3`, a thrown issues model
call makes the whole fan-in reject (the handler answers with an error
response instead of completing), and an unparseable issues response makes
the run complete with an *empty* issues list — not a non-empty deterministic
fallback list.  There is no local fallback issues generator in the code. -/
theorem runEnrichment_issuesFailure_cex :
    fillerHeavyMetrics.fillerPerMinute > 3
    ∧ runEnrichment "conv" [] fillerHeavyMetrics (Except.error "network failure")
        (Except.ok none) (Except.ok none) = Except.error "network failure"
    ∧ runEnrichment "conv" [] fillerHeavyMetrics (Except.ok none)
        (Except.ok none) (Except.ok none)
      = Except.ok ([], "Untitled Session", generateFallbackHighlights fillerHeavyMetrics []) := by
  refine ⟨by decide, rfl, rfl⟩

/-- Claim C1, amended: if the issues model response is unparseable, the run still
completes, the title and coaching-highlights derivations are unaffected, and
the returned issues list is empty; if the issues model call itself throws,
the whole run fails with that error — the orchestrator does not return the
other two outputs and no deterministic fallback issues list exists. -/
theorem runEnrichment_issuesFailure (cid : String) (segs : List SegmentAnalysis)
    (m : Metrics) (e : String)
    (titleCall : Except String (Option String))
    (highlightsCall : Except String (Option (List RawHighlight))) :
    runEnrichment cid segs m (Except.error e) titleCall highlightsCall = Except.error e
    ∧ runEnrichment cid segs m (Except.ok none) titleCall highlightsCall =
        Except.ok ([], generateSessionTitle segs m titleCall,
          generateCoachingHighlights segs m [] cid highlightsCall) :=
  ⟨rfl, rfl⟩

/-! ## C8 — exact filler count -/

/-- Claim C8: the `fillerCount` field of the pipeline's metrics equals exactly the
number of token-level tags of kind `filler`, summed over all tokens of all
speech segments. -/
theorem pipelineMetrics_fillerCount (cid : String) (tokens : List Token) (r1 r2 r3 : ℚ) :
    (pipelineMetrics cid tokens r1 r2 r3).fillerCount
      = countFillerTags (pipelineSpeechSegments cid tokens) :=
  calculateMetrics_fillerCount (pipelineSpeechSegments cid tokens) (pipelinePauses tokens) r1 r2 r3

/-! ## C3 — the Punctuator -/

/-- Claim C3, counterexample: a last token whose text ends in a comma — not
terminal punctuation — receives no period (the claim says the last token
always receives one), and a token with trailing whitespace and a sub-300 ms
gap has its text changed by trimming (the claim says it is left unchanged). -/
theorem addPunctuationToTokens_cex :
    ((addPunctuationToTokens lastCommaToks).getD 0 default).text = "well,"
    ∧ isSentenceEnd "well," = false
    ∧ ((addPunctuationToTokens trimToks).getD 0 default).text = "hi"
    ∧ (trimToks.getD 0 default).text = "hi " := by
  refine ⟨by decide, by decide, by decide, by decide⟩

/-- Claim C3, amended: the Punctuator first trims each token's text; a token whose
trimmed text already ends in one of `. , ! ? ; :` is left untouched
(including the last token, which therefore does not always receive a
period); otherwise, for a non-final token a gap of at least 800 ms to the
next token's start appends a period — a question mark when the last word of
the trimmed text is an interrogative —, a gap in [300, 800) appends a comma,
and a smaller gap leaves the trimmed text unpunctuated; the last token
receives a period. -/
theorem addPunctuationToTokens_spec (l : List Token) (i : ℕ) (hi : i < l.length) :
    (addPunctuationToTokens l).getD i default =
      (let t := l.getD i default
       let trimmed := jsTrim t.text
       if endsInPunct trimmed then t
       else if i + 1 < l.length then
         let gap := (l.getD (i + 1) default).start_ms - t.end_ms
         if gap ≥ 800 then
           if questionWords.contains
               ((splitChars (fun c => c = ' ') (jsToLower trimmed)).getLastD "") then
             { t with text := trimmed ++ "?" }
           else { t with text := trimmed ++ "." }
         else if gap ≥ 300 then { t with text := trimmed ++ "," }
         else { t with text := trimmed }
       else { t with text := trimmed ++ "." }) := by
  induction l generalizing i with
  | nil => simp at hi
  | cons t rest ih =>
      cases rest with
      | nil =>
          cases i with
          | zero => simp [addPunctuationToTokens, punctuateLast]
          | succ j => exact absurd hi (by simp)
      | cons u rest' =>
          cases i with
          | zero =>
              simp [addPunctuationToTokens, punctuateMid, LONG_PAUSE_MS, SHORT_PAUSE_MS]
          | succ j =>
              have hj : j < (u :: rest').length := by simpa using hi
              have step : addPunctuationToTokens (t :: u :: rest')
                  = punctuateMid t u :: addPunctuationToTokens (u :: rest') := rfl
              rw [step]
              simpa using ih j hj

/-- Claim C3, witness: the amended punctuation rule evaluated at the first token
of the whitespace example. -/
theorem addPunctuationToTokens_spec_witness :
    0 < trimToks.length
    ∧ (addPunctuationToTokens trimToks).getD 0 default =
      (let t := trimToks.getD 0 default
       let trimmed := jsTrim t.text
       if endsInPunct trimmed then t
       else if 0 + 1 < trimToks.length then
         let gap := (trimToks.getD (0 + 1) default).start_ms - t.end_ms
         if gap ≥ 800 then
           if questionWords.contains
               ((splitChars (fun c => c = ' ') (jsToLower trimmed)).getLastD "") then
             { t with text := trimmed ++ "?" }
           else { t with text := trimmed ++ "." }
         else if gap ≥ 300 then { t with text := trimmed ++ "," }
         else { t with text := trimmed }
       else { t with text := trimmed ++ "." }) :=
  ⟨by decide, addPunctuationToTokens_spec trimToks 0 (by decide)⟩

/-! ## C6 — the sentence split -/

/-- Claim C6, counterexample: an eight-token block (fewer than 15 tokens) with
four early sentence terminators is split into two segments, contradicting
the claimed token-count exemption, which only exists in the unused
model-based splitter. -/
theorem splitBySentences_cex :
    eightToks.length < 15
    ∧ (splitBySentences eightToks 4).length = 2 := by
  refine ⟨by decide, by decide⟩

/-- Claim C6, amended: the sentence split keeps a block as a single segment when
it has at most 2 sentence terminators; otherwise it splits at terminators,
closing a segment once 4 terminator-ending tokens have accumulated, so no
output segment contains more than 4; no token is dropped (a final partial
segment is kept), and for a non-empty block every output segment is
non-empty.  There is no token-count exemption in the executed path. -/
theorem splitBySentences_spec (l : List Token) :
    (terminatorCount l ≤ 2 → splitBySentences l 4 = [l])
    ∧ (splitBySentences l 4).flatten = l
    ∧ (∀ p ∈ splitBySentences l 4, terminatorCount p ≤ 4)
    ∧ (l ≠ [] → ∀ p ∈ splitBySentences l 4, p ≠ []) := by
  refine ⟨?_, ?_, ?_, ?_⟩
  · intro h
    unfold splitBySentences
    rw [sbsGo_single 4 l [] 0 (by simp only [terminatorCount] at h ⊢; omega)]
    cases l <;> simp
  · exact splitBySentences_flatten l 4
  · intro p hp
    unfold splitBySentences at hp
    by_cases hseg : (sbsGo 4 [] 0 l).isEmpty
    · have hl : l = [] := by
        have := sbsGo_flatten 4 l [] 0
        rw [List.isEmpty_iff.mp hseg] at this
        simpa using this.symm
      simp [hseg] at hp
      simp [hp, hl, terminatorCount]
    · simp [hseg] at hp
      exact sbsGo_termCount_le 4 (by omega) l [] 0 (by simp [terminatorCount]) (by omega) p hp
  · intro hl p hp
    unfold splitBySentences at hp
    by_cases hseg : (sbsGo 4 [] 0 l).isEmpty
    · exfalso
      have := sbsGo_flatten 4 l [] 0
      rw [List.isEmpty_iff.mp hseg] at this
      exact hl (by simpa using this.symm)
    · simp [hseg] at hp
      exact sbsGo_ne 4 l [] 0 p hp

/-- Claim C6, witness: the amended sentence-split property applied to a
terminator-free block, which stays a single segment. -/
theorem splitBySentences_spec_witness :
    terminatorCount forceToks ≤ 2 ∧ splitBySentences forceToks 4 = [forceToks] :=
  ⟨by decide, (splitBySentences_spec forceToks).1 (by decide)⟩

/-! ## C5 — the hard cap can be exceeded -/

/-- Claim C5, counterexample: a block force-split at the hard cap still contains
the token whose end crossed the cap, so its span is 26,000 ms — more than
25,000 ms, hence more than 25,000 ms minus any (non-negative) token
duration. -/
theorem splitIntoSegmentsDynamic_span_cex :
    (splitIntoSegmentsDynamic capToks).1.map tokenSpanMs = [26000, 500]
    ∧ (25000 : ℤ) < 26000 := by
  refine ⟨by decide, by decide⟩

/-! ## C2 — assembled-timeline counterexample -/

/-- Claim C2, counterexample: on `gapToks` the assembled segment list is two
speech segments covering [0, 1500] and [1600, 1700] — a 100 ms hole with no
pause segment, so the list does not cover the token interval without gaps;
and on `forceToks` the forced split records a zero-duration pause, so the
assembled `startMs` sequence 0, 25000, 25000 is not strictly increasing. -/
theorem analyzePipeline_cover_cex :
    (analyzePipeline "conv" gapToks).map (fun s => (s.startMs, s.endMs))
        = [((0 : ℤ), (1500 : ℤ)), (1600, 1700)]
    ∧ (1500 : ℤ) ≠ 1600
    ∧ (analyzePipeline "conv" forceToks).map (fun s => s.startMs)
        = [(0 : ℤ), 25000, 25000] := by
  refine ⟨by decide, by decide, by decide⟩

/-! ## Pass A invariants -/

/-- The split loop loses no token: the blocks flatten back to the input. -/
theorem goSplit_flatten (rest : List Token) : ∀ (s : ℤ) (cur : List Token),
    ((goSplit s cur rest).1).flatten = cur ++ rest := by
  induction rest with
  | nil => intro s cur; cases cur <;> simp [goSplit]
  | cons t rest ih =>
      intro s cur
      cases rest with
      | nil => simp [goSplit]
      | cons u rest' =>
          simp only [goSplit]
          split_ifs <;> simp [ih]

/-- For a non-empty input every produced block is non-empty. -/
theorem goSplit_blocks_ne (rest : List Token) : ∀ (s : ℤ) (cur : List Token), rest ≠ [] →
    ∀ b ∈ (goSplit s cur rest).1, b ≠ [] := by
  induction rest with
  | nil => intro s cur h; exact absurd rfl h
  | cons t rest ih =>
      intro s cur _ b hb
      cases rest with
      | nil =>
          simp [goSplit] at hb
          simp [hb]
      | cons u rest' =>
          simp only [goSplit] at hb
          split_ifs at hb with hcond
          · rcases List.mem_cons.mp hb with rfl | hb'
            · simp
            · exact ih u.start_ms [] (by simp) b hb'
          · exact ih s (cur ++ [t]) (by simp) b hb

/-- The split loop records exactly one pause between adjacent blocks: one
more block than pauses. -/
theorem goSplit_length (rest : List Token) : ∀ (s : ℤ) (cur : List Token), rest ≠ [] →
    (goSplit s cur rest).1.length = (goSplit s cur rest).2.length + 1 := by
  induction rest with
  | nil => intro s cur h; exact absurd rfl h
  | cons t rest ih =>
      intro s cur _
      cases rest with
      | nil => simp [goSplit]
      | cons u rest' =>
          simp only [goSplit]
          split_ifs
          · simp [ih u.start_ms [] (by simp)]
          · exact ih s (cur ++ [t]) (by simp)

/-- Extending a split-free run by one split-free pair keeps it split-free. -/
theorem interPairsOk_snoc (h a b : Token)
    (hab : b.start_ms - a.end_ms < pauseThresholdFor (a.end_ms - h.start_ms)
      ∧ a.end_ms - h.start_ms < MAX_SEGMENT_DURATION_MS) :
    ∀ (xs : List Token), interPairsOk h (xs ++ [a]) → interPairsOk h ((xs ++ [a]) ++ [b])
  | [], _ => by
      simp only [List.nil_append]
      exact ⟨hab, trivial⟩
  | [x], hx => by
      simp only [List.cons_append, List.nil_append] at hx ⊢
      exact ⟨hx.1, hab, trivial⟩
  | x :: y :: ys, hx => by
      simp only [List.cons_append] at hx ⊢
      exact ⟨hx.1, interPairsOk_snoc h a b hab (y :: ys) hx.2⟩

/-- The block being closed satisfies `blockOk` under the loop invariant. -/
theorem blockOk_of_pre (s : ℤ) (cur : List Token) (t : Token) (rest : List Token)
    (hpre : goSplitPre s cur (t :: rest)) : blockOk (cur ++ [t]) := by
  cases cur with
  | nil => simp [blockOk, interPairsOk]
  | cons c cs =>
      obtain ⟨_, hip⟩ := hpre
      simpa [blockOk, List.cons_append] using hip

/-- Under the loop invariant, `segmentStartMs` is the start of the head of
the block being closed. -/
theorem headD_of_pre (s : ℤ) (cur : List Token) (t : Token) (rest : List Token)
    (hpre : goSplitPre s cur (t :: rest)) :
    s = ((cur ++ [t]).headD default).start_ms := by
  cases cur with
  | nil => simpa [goSplitPre] using hpre
  | cons c cs =>
      obtain ⟨hs, _⟩ := hpre
      simpa using hs

/-- Head of the first piece of a flatten decomposition. -/
theorem headD_eq_of_flatten_cons (b : List Token) (bs : List (List Token))
    (u : Token) (rest : List Token)
    (hne : b ≠ []) (hfl : (b :: bs).flatten = u :: rest) : b.headD default = u := by
  cases b with
  | nil => exact absurd rfl hne
  | cons v vs =>
      simp only [List.flatten_cons, List.cons_append] at hfl
      exact (List.cons.injEq _ _ _ _ ▸ hfl).1

/-- Last element of a block closed by appending `t`. -/
theorem getLastD_concat (l : List Token) (a : Token) :
    (l ++ [a]).getLastD default = a := by
  rw [List.getLastD_eq_getLast?, List.getLast?_concat]
  rfl

/-- Main invariant of the split loop: every produced block has no interior
split point, and the blocks and pauses are linked — each pause sits exactly
between its adjacent blocks and its boundary satisfies the split condition. -/
theorem goSplit_main (rest : List Token) : ∀ (s : ℤ) (cur : List Token),
    rest ≠ [] → goSplitPre s cur rest →
    (∀ b ∈ (goSplit s cur rest).1, blockOk b)
    ∧ chainLinked (goSplit s cur rest).1 (goSplit s cur rest).2 := by
  induction rest with
  | nil => intro s cur h _; exact absurd rfl h
  | cons t rest ih =>
      intro s cur _ hpre
      cases rest with
      | nil =>
          constructor
          · intro b hb
            simp [goSplit] at hb
            rw [hb]
            exact blockOk_of_pre s cur t [] hpre
          · exact trivial
      | cons u rest' =>
          by_cases hcond : (u.start_ms - t.end_ms ≥ pauseThresholdFor (t.end_ms - s)
              ∨ t.end_ms - s ≥ MAX_SEGMENT_DURATION_MS)
          · have hres := ih u.start_ms [] (by simp) (by simp [goSplitPre])
            have hflat := goSplit_flatten (u :: rest') u.start_ms []
            have hlen := goSplit_length (u :: rest') u.start_ms [] (by simp)
            have hgo : goSplit s cur (t :: u :: rest')
                = ((cur ++ [t]) :: (goSplit u.start_ms [] (u :: rest')).1,
                   (⟨t.end_ms, u.start_ms, u.start_ms - t.end_ms⟩ : Pause)
                     :: (goSplit u.start_ms [] (u :: rest')).2) := by
              simp only [goSplit]
              rw [if_pos hcond]
            rw [hgo]
            obtain ⟨hblocks, hchain⟩ := hres
            obtain ⟨b', bs, hbs⟩ : ∃ b' bs, (goSplit u.start_ms [] (u :: rest')).1 = b' :: bs := by
              cases hcase : (goSplit u.start_ms [] (u :: rest')).1 with
              | nil => rw [hcase] at hlen; simp at hlen
              | cons b' bs => exact ⟨b', bs, rfl⟩
            have hb'ne : b' ≠ [] :=
              goSplit_blocks_ne (u :: rest') u.start_ms [] (by simp) b' (by rw [hbs]; simp)
            have hb'head : b'.headD default = u := by
              rw [hbs] at hflat
              exact headD_eq_of_flatten_cons b' bs u rest' hb'ne (by simpa using hflat)
            constructor
            · intro b hb
              rcases List.mem_cons.mp hb with rfl | hb'
              · exact blockOk_of_pre s cur t (u :: rest') hpre
              · exact hblocks b hb'
            · rw [hbs]
              rw [hbs] at hchain
              refine ⟨⟨?_, ?_, ?_, ?_⟩, hchain⟩
              · rw [getLastD_concat]
              · rw [hb'head]
              · rw [hb'head, getLastD_concat]
              · rw [hb'head, getLastD_concat]
                rw [headD_of_pre s cur t (u :: rest') hpre] at hcond
                exact hcond
          · have hpre' : goSplitPre s (cur ++ [t]) (u :: rest') := by
              push_neg at hcond
              cases cur with
              | nil =>
                  have hs : s = t.start_ms := by simpa [goSplitPre] using hpre
                  refine ⟨by simpa using hs, ?_⟩
                  refine ⟨?_, trivial⟩
                  rw [← hs]
                  exact hcond
              | cons c cs =>
                  obtain ⟨hs, hip⟩ := hpre
                  refine ⟨hs, ?_⟩
                  have := interPairsOk_snoc c t u (by rw [← hs]; exact hcond) (c :: cs) hip
                  simpa [List.append_assoc] using this
            have hgo : goSplit s cur (t :: u :: rest') = goSplit s (cur ++ [t]) (u :: rest') := by
              simp only [goSplit]
              rw [if_neg hcond]
            rw [hgo]
            exact ih s (cur ++ [t]) (by simp) hpre'

/-! ## C4 — Pass A splits exactly at threshold or cap -/

/-- Claim C4: Pass A splits exactly when the gap to the next token meets the active
adaptive threshold (2000 ms below a 20 s running duration, 1000 ms from
20 s on) or the running duration has reached the 25 s hard cap: the blocks
partition the tokens in order, there is exactly one pause between adjacent
blocks (a synthetic marker is recorded even for a forced split), every
boundary satisfies the split condition (`chainLinked`), and no interior pair
of a block satisfies it (`blockOk`). -/
theorem splitIntoSegmentsDynamic_characterization (tokens : List Token) (h : tokens ≠ []) :
    ((splitIntoSegmentsDynamic tokens).1).flatten = tokens
    ∧ (splitIntoSegmentsDynamic tokens).1.length = (splitIntoSegmentsDynamic tokens).2.length + 1
    ∧ (∀ b ∈ (splitIntoSegmentsDynamic tokens).1, blockOk b)
    ∧ chainLinked (splitIntoSegmentsDynamic tokens).1 (splitIntoSegmentsDynamic tokens).2 := by
  cases tokens with
  | nil => exact absurd rfl h
  | cons t rest =>
      have hm := goSplit_main (t :: rest) t.start_ms [] (by simp) (by simp [goSplitPre])
      exact ⟨by simpa using goSplit_flatten (t :: rest) t.start_ms [],
             goSplit_length (t :: rest) t.start_ms [] (by simp),
             hm.1, hm.2⟩

/-- Claim C4, witness: the characterization evaluated on the 30-second pauseless
token stream of the spec's example. -/
theorem splitIntoSegmentsDynamic_characterization_witness :
    thirtySecToks ≠ []
    ∧ (((splitIntoSegmentsDynamic thirtySecToks).1).flatten = thirtySecToks
      ∧ (splitIntoSegmentsDynamic thirtySecToks).1.length
          = (splitIntoSegmentsDynamic thirtySecToks).2.length + 1
      ∧ (∀ b ∈ (splitIntoSegmentsDynamic thirtySecToks).1, blockOk b)
      ∧ chainLinked (splitIntoSegmentsDynamic thirtySecToks).1
          (splitIntoSegmentsDynamic thirtySecToks).2) :=
  ⟨by decide, splitIntoSegmentsDynamic_characterization thirtySecToks (by decide)⟩

/-! ## C5 (amended) — the real span bound -/

/-- Walking a split-free run from the block head, the last token's offset
from the head start either stays within the head token or is bounded by the
cap plus the base threshold plus the last token's own duration. -/
theorem span_of_interPairsOk (h : Token) (l : List Token) : ∀ (c : Token),
    interPairsOk h (c :: l) →
    ∀ x, (c :: l).getLast? = some x →
      (x = c ∧ x.end_ms - h.start_ms ≤ c.end_ms - h.start_ms)
      ∨ x.end_ms - h.start_ms < MAX_SEGMENT_DURATION_MS + BASE_PAUSE_THRESHOLD_MS
          + (x.end_ms - x.start_ms) := by
  induction l with
  | nil =>
      intro c _ x hx
      left
      simp at hx
      rw [hx]
      exact ⟨rfl, le_refl _⟩
  | cons y ys ih =>
      intro c hip x hx
      obtain ⟨⟨hgap, hdur⟩, hrest⟩ := hip
      have hx' : (y :: ys).getLast? = some x := by simpa using hx
      have hth : pauseThresholdFor (c.end_ms - h.start_ms) ≤ BASE_PAUSE_THRESHOLD_MS := by
        unfold pauseThresholdFor REDUCED_PAUSE_THRESHOLD_MS BASE_PAUSE_THRESHOLD_MS
        split_ifs <;> omega
      right
      rcases ih y hrest x hx' with ⟨rfl, hle⟩ | hbound
      · unfold MAX_SEGMENT_DURATION_MS BASE_PAUSE_THRESHOLD_MS at *
        omega
      · exact hbound

/-- Claim C5, amended: every block produced by Pass A is non-empty, and its token
span is strictly below 25,000 ms plus the base pause threshold (2,000 ms)
plus the duration of its own last token — the cap can be exceeded by up to a
gap plus one token, but not more. -/
theorem splitIntoSegmentsDynamic_span (tokens : List Token) (b : List Token)
    (hb : b ∈ (splitIntoSegmentsDynamic tokens).1) :
    b ≠ [] ∧ tokenSpanMs b < MAX_SEGMENT_DURATION_MS + BASE_PAUSE_THRESHOLD_MS
      + ((b.getLastD default).end_ms - (b.getLastD default).start_ms) := by
  cases tokens with
  | nil => simp [splitIntoSegmentsDynamic] at hb
  | cons t rest =>
      have hb' : b ∈ (goSplit t.start_ms [] (t :: rest)).1 := hb
      have hne := goSplit_blocks_ne (t :: rest) t.start_ms [] (by simp) b hb'
      have hmain := goSplit_main (t :: rest) t.start_ms [] (by simp) (by simp [goSplitPre])
      have hbo := hmain.1 b hb'
      cases b with
      | nil => exact absurd rfl hne
      | cons c l =>
          refine ⟨by simp, ?_⟩
          have hip : interPairsOk c (c :: l) := hbo
          have hx : (c :: l).getLast? = some ((c :: l).getLast (by simp)) :=
            List.getLast?_eq_getLast (c :: l) (by simp)
          have hlast : (c :: l).getLastD default = (c :: l).getLast (by simp) := by
            rw [List.getLastD_eq_getLast?, hx]
            rfl
          rcases span_of_interPairsOk c l c hip ((c :: l).getLast (by simp)) hx with
            ⟨heq, hle⟩ | hbound
          · unfold tokenSpanMs
            rw [hlast, heq]
            simp only [List.headD_cons]
            unfold MAX_SEGMENT_DURATION_MS BASE_PAUSE_THRESHOLD_MS
            omega
          · unfold tokenSpanMs
            rw [hlast]
            simpa using hbound

/-- Claim C5, amended, witness: the bound evaluated at the over-cap block of
`capToks`. -/
theorem splitIntoSegmentsDynamic_span_witness :
    capBlock ∈ (splitIntoSegmentsDynamic capToks).1
    ∧ (capBlock ≠ [] ∧ tokenSpanMs capBlock
        < MAX_SEGMENT_DURATION_MS + BASE_PAUSE_THRESHOLD_MS
          + ((capBlock.getLastD default).end_ms - (capBlock.getLastD default).start_ms)) :=
  ⟨by decide, splitIntoSegmentsDynamic_span capToks capBlock (by decide)⟩

/-! ## C7 — the two metric denominators -/

/-- Claim C7: `avgWpm` equals the total word count divided by the summed
per-segment speaking duration in seconds, times 60 and rounded, while
`fillerPerMinute` divides by the wall-clock session duration (last segment
`endMs` minus first segment `startMs`) — two different denominators. -/
theorem calculateMetrics_denominators (segs : List SegmentAnalysis) (ps : List Pause)
    (r1 r2 r3 : ℚ) (h1 : 0 < speakingDurationMsOf segs) (h2 : 0 < wallClockMsOf segs) :
    (calculateMetrics segs ps r1 r2 r3).avgWpm
        = jsRound (((totalWordsOf segs : ℚ) / ((speakingDurationMsOf segs : ℚ) / 1000)) * 60)
    ∧ (calculateMetrics segs ps r1 r2 r3).fillerPerMinute
        = toFixed1 (((countFillerTags segs : ℚ) / ((wallClockMsOf segs : ℚ) / 1000)) * 60) := by
  cases segs with
  | nil => simp [speakingDurationMsOf] at h1
  | cons s0 rest =>
      have hsp : (s0 :: rest).foldl (fun sum s => sum + (s.endMs - s.startMs)) 0
          = speakingDurationMsOf (s0 :: rest) := by
        rw [foldl_add_eq]
        simp [speakingDurationMsOf]
      have htw : (s0 :: rest).foldl (fun sum s => sum + s.tokens.length) 0
          = totalWordsOf (s0 :: rest) := by
        rw [foldl_add_eq]
        simp [totalWordsOf]
      have hfc := fillerCount_foldl_eq (s0 :: rest) 0
      have hwc : ((s0 :: rest).getLastD s0).endMs - s0.startMs = wallClockMsOf (s0 :: rest) := rfl
      constructor
      · simp only [calculateMetrics]
        rw [hsp, htw]
        rw [if_pos h1]
      · simp only [calculateMetrics]
        rw [hfc, hwc]
        have hpos : (0 : ℚ) < (wallClockMsOf (s0 :: rest) : ℚ) / 1000 := by
          apply div_pos
          · exact_mod_cast h2
          · norm_num
        rw [if_pos hpos]
        simp

/-- Claim C7, witness: the two denominators evaluated on the pipeline output for
`pauseToks`, where speaking duration (600 ms) and wall-clock duration
(2900 ms) differ. -/
theorem calculateMetrics_denominators_witness :
    (0 < speakingDurationMsOf (pipelineSpeechSegments "conv" pauseToks)
      ∧ 0 < wallClockMsOf (pipelineSpeechSegments "conv" pauseToks))
    ∧ ((calculateMetrics (pipelineSpeechSegments "conv" pauseToks)
          (pipelinePauses pauseToks) 0 0 0).avgWpm
        = jsRound (((totalWordsOf (pipelineSpeechSegments "conv" pauseToks) : ℚ)
            / ((speakingDurationMsOf (pipelineSpeechSegments "conv" pauseToks) : ℚ) / 1000)) * 60)
      ∧ (calculateMetrics (pipelineSpeechSegments "conv" pauseToks)
          (pipelinePauses pauseToks) 0 0 0).fillerPerMinute
        = toFixed1 (((countFillerTags (pipelineSpeechSegments "conv" pauseToks) : ℚ)
            / ((wallClockMsOf (pipelineSpeechSegments "conv" pauseToks) : ℚ) / 1000)) * 60)) :=
  ⟨⟨by decide, by decide⟩,
   calculateMetrics_denominators (pipelineSpeechSegments "conv" pauseToks)
     (pipelinePauses pauseToks) 0 0 0 (by decide) (by decide)⟩

/-! ## C9 — pause segments carry exactly one tag with the 4 s severity rule -/

/-- Every pause the split loop records has `durationMs` equal to its
endpoints' difference. -/
theorem goSplit_pause_dur (rest : List Token) : ∀ (s : ℤ) (cur : List Token),
    ∀ p ∈ (goSplit s cur rest).2, p.durationMs = p.stop - p.start := by
  induction rest with
  | nil => intro s cur p hp; simp [goSplit] at hp
  | cons t rest ih =>
      intro s cur p hp
      cases rest with
      | nil => simp [goSplit] at hp
      | cons u rest' =>
          simp only [goSplit] at hp
          split_ifs at hp
          · rcases List.mem_cons.mp hp with rfl | hp'
            · rfl
            · exact ih u.start_ms [] p hp'
          · exact ih s (cur ++ [t]) p hp

/-- Analyzed content segments are speech segments. -/
theorem analyzeListFrom_kind (cid : String) (cs : List (List Token)) : ∀ (gi : ℕ),
    ∀ x ∈ analyzeListFrom cid gi cs, x.kind = SegKind.speech := by
  induction cs with
  | nil => intro gi x hx; simp [analyzeListFrom] at hx
  | cons p ps ih =>
      intro gi x hx
      rcases List.mem_cons.mp hx with rfl | hx'
      · rfl
      · exact ih (gi + 1) x hx'

/-- Pause segments of the interleaved assembly carry exactly one tag, with
severity `medium` exactly above a 4000 ms duration, provided every pause
record is internally consistent. -/
theorem interleave_pause_tags (cid : String) (bs : List (List (List Token))) :
    ∀ (gi bi : ℕ) (ps : List Pause),
    (∀ p ∈ ps, p.durationMs = p.stop - p.start) →
    ∀ s ∈ interleave cid gi bi bs ps, s.kind = SegKind.pause →
      s.tags.length = 1
      ∧ (s.tags.headD default).severity
          = (if 4000 < s.endMs - s.startMs then Severity.medium else Severity.low) := by
  induction bs with
  | nil => intro gi bi ps _ s hs; simp [interleave] at hs
  | cons cs bs ih =>
      intro gi bi ps hps s hs hk
      simp only [interleave] at hs
      rcases List.mem_append.mp hs with hs' | hs'
      · exact absurd (analyzeListFrom_kind cid cs gi s hs') (by rw [hk]; simp)
      · cases ps with
        | nil => exact ih (gi + cs.length) (bi + 1) [] (by simp) s hs' hk
        | cons p ps' =>
            rcases List.mem_cons.mp hs' with rfl | hs''
            · refine ⟨rfl, ?_⟩
              have hdur : p.durationMs = p.stop - p.start := hps p (by simp)
              show (if p.durationMs > 4000 then Severity.medium else Severity.low)
                  = (if 4000 < p.stop - p.start then Severity.medium else Severity.low)
              rw [hdur]
            · exact ih (gi + cs.length) (bi + 1) ps' (fun q hq => hps q (by simp [hq])) s hs'' hk

/-- Claim C9: every pause segment the pipeline emits carries exactly one tag, and
that tag's severity is `medium` exactly when the pause lasts more than
4000 ms, `low` otherwise. -/
theorem analyzePipeline_pauseTags (cid : String) (tokens : List Token)
    (s : SegmentAnalysis) (hs : s ∈ analyzePipeline cid tokens)
    (hk : s.kind = SegKind.pause) :
    s.tags.length = 1
    ∧ (s.tags.headD default).severity
        = (if 4000 < s.endMs - s.startMs then Severity.medium else Severity.low) := by
  have hps : ∀ p ∈ (splitIntoSegmentsDynamic (addPunctuationToTokens tokens)).2,
      p.durationMs = p.stop - p.start := by
    intro p hp
    cases hcase : addPunctuationToTokens tokens with
    | nil =>
        rw [hcase] at hp
        simp [splitIntoSegmentsDynamic] at hp
    | cons t rest =>
        rw [hcase] at hp
        exact goSplit_pause_dur (t :: rest) t.start_ms [] p hp
  exact interleave_pause_tags cid
    ((splitIntoSegmentsDynamic (addPunctuationToTokens tokens)).1.map
      (fun b => splitBySentences b 4)) 0 0
    (splitIntoSegmentsDynamic (addPunctuationToTokens tokens)).2 hps s hs hk

/-- Claim C9, witness: the pause-tag rule evaluated at the pause segment the
pipeline emits for `pauseToks`. -/
theorem analyzePipeline_pauseTags_witness :
    (((analyzePipeline "conv" pauseToks).getD 1 default) ∈ analyzePipeline "conv" pauseToks
      ∧ ((analyzePipeline "conv" pauseToks).getD 1 default).kind = SegKind.pause)
    ∧ (((analyzePipeline "conv" pauseToks).getD 1 default).tags.length = 1
      ∧ ((((analyzePipeline "conv" pauseToks).getD 1 default).tags.headD default).severity
          = (if 4000 < ((analyzePipeline "conv" pauseToks).getD 1 default).endMs
                - ((analyzePipeline "conv" pauseToks).getD 1 default).startMs
             then Severity.medium else Severity.low))) :=
  ⟨⟨by decide, by decide⟩,
   analyzePipeline_pauseTags "conv" pauseToks
     ((analyzePipeline "conv" pauseToks).getD 1 default) (by decide) (by decide)⟩

/-! ## C2 (amended) — weak timeline coverage of the assembled segments -/

theorem punctuateMid_times (t u : Token) :
    (punctuateMid t u).start_ms = t.start_ms ∧ (punctuateMid t u).end_ms = t.end_ms := by
  simp only [punctuateMid]
  split_ifs <;> exact ⟨rfl, rfl⟩

theorem punctuateLast_times (t : Token) :
    (punctuateLast t).start_ms = t.start_ms ∧ (punctuateLast t).end_ms = t.end_ms := by
  simp only [punctuateLast]
  split_ifs <;> exact ⟨rfl, rfl⟩

theorem addPunct_map_times (l : List Token) :
    (addPunctuationToTokens l).map (fun t => (t.start_ms, t.end_ms))
      = l.map (fun t => (t.start_ms, t.end_ms)) := by
  induction l with
  | nil => rfl
  | cons t rest ih =>
      cases rest with
      | nil =>
          simp [addPunctuationToTokens, (punctuateLast_times t).1, (punctuateLast_times t).2]
      | cons u rest' =>
          have step : addPunctuationToTokens (t :: u :: rest')
              = punctuateMid t u :: addPunctuationToTokens (u :: rest') := rfl
          rw [step]
          simp [(punctuateMid_times t u).1, (punctuateMid_times t u).2, ih]

theorem addPunct_ne (l : List Token) (h : l ≠ []) : addPunctuationToTokens l ≠ [] := by
  have hlen : (addPunctuationToTokens l).length = l.length := by
    have := congrArg List.length (addPunct_map_times l)
    simpa using this
  intro hcon
  rw [hcon] at hlen
  exact h (List.length_eq_zero.mp hlen.symm)

theorem addPunct_wf (l : List Token) (h : tokensWellFormed l) :
    tokensWellFormed (addPunctuationToTokens l) := by
  obtain ⟨hse, hchain⟩ := h
  constructor
  · intro t ht
    have hmem : (t.start_ms, t.end_ms)
        ∈ (addPunctuationToTokens l).map (fun t => (t.start_ms, t.end_ms)) :=
      List.mem_map_of_mem _ ht
    rw [addPunct_map_times] at hmem
    obtain ⟨t', ht', heq⟩ := List.mem_map.mp hmem
    have h1 : t'.start_ms = t.start_ms := congrArg Prod.fst heq
    have h2 : t'.end_ms = t.end_ms := congrArg Prod.snd heq
    rw [← h1, ← h2]
    exact hse t' ht'
  · have h1 : ((addPunctuationToTokens l).map (fun t => (t.start_ms, t.end_ms))).Chain'
        (fun p q => p.2 ≤ q.1) := by
      rw [addPunct_map_times]
      exact (List.chain'_map _).mpr (by simpa using hchain)
    simpa using (List.chain'_map _).mp h1

theorem addPunct_headD_start (l : List Token) :
    ((addPunctuationToTokens l).headD default).start_ms = (l.headD default).start_ms := by
  cases l with
  | nil => rfl
  | cons t rest =>
      cases rest with
      | nil => exact (punctuateLast_times t).1
      | cons u rest' => exact (punctuateMid_times t u).1

theorem getLast?_eq_getLastD {α : Type} [Inhabited α] (l : List α) (h : l ≠ []) :
    l.getLast? = some (l.getLastD default) := by
  obtain ⟨x, hx⟩ := Option.isSome_iff_exists.mp (List.getLast?_isSome.mpr h)
  rw [hx, List.getLastD_eq_getLast?, hx]
  rfl

theorem head?_eq_headD {α : Type} [Inhabited α] (l : List α) (h : l ≠ []) :
    l.head? = some (l.headD default) := by
  cases l with
  | nil => exact absurd rfl h
  | cons a l => rfl

theorem addPunct_getLastD_end (l : List Token) (h : l ≠ []) :
    ((addPunctuationToTokens l).getLastD default).end_ms = (l.getLastD default).end_ms := by
  have h1 := congrArg List.getLast? (addPunct_map_times l)
  rw [List.getLast?_map, List.getLast?_map] at h1
  rw [getLast?_eq_getLastD l h, getLast?_eq_getLastD (addPunctuationToTokens l) (addPunct_ne l h)]
    at h1
  have h2 : (((addPunctuationToTokens l).getLastD default).start_ms,
      ((addPunctuationToTokens l).getLastD default).end_ms)
      = ((l.getLastD default).start_ms, (l.getLastD default).end_ms) := by
    simpa using h1
  exact congrArg Prod.snd h2

theorem headD_append_left {α : Type} [Inhabited α] (l1 l2 : List α) (h : l1 ≠ []) :
    (l1 ++ l2).headD default = l1.headD default := by
  cases l1 with
  | nil => exact absurd rfl h
  | cons a l => rfl

theorem getLastD_append_right {α : Type} [Inhabited α] (l1 l2 : List α) (h : l2 ≠ []) :
    (l1 ++ l2).getLastD default = l2.getLastD default := by
  rw [List.getLastD_eq_getLast?, List.getLastD_eq_getLast?,
    List.getLast?_append_of_ne_nil l1 h]

theorem head_le_last_of_chain (p : List Token) : p ≠ [] →
    p.Chain' (fun a b => a.end_ms ≤ b.start_ms) → (∀ t ∈ p, t.start_ms ≤ t.end_ms) →
    (p.headD default).start_ms ≤ (p.getLastD default).end_ms := by
  induction p with
  | nil => intro h; exact absurd rfl h
  | cons x rest ih =>
      intro _ hchain hse
      cases rest with
      | nil => simpa using hse x (by simp)
      | cons y ys =>
          have hxy : x.end_ms ≤ y.start_ms := (List.chain'_cons.mp hchain).1
          have hx : x.start_ms ≤ x.end_ms := hse x (by simp)
          have hrec := ih (by simp) (List.chain'_cons.mp hchain).2
            (fun t ht => hse t (by simp [ht]))
          have hgl : ((x :: y :: ys).getLastD default) = ((y :: ys).getLastD default) := by
            rw [List.getLastD_eq_getLast?, List.getLastD_eq_getLast?, List.getLast?_cons_cons]
          rw [hgl]
          simp only [List.headD_cons] at hrec ⊢
          omega

theorem flatten_ne {α : Type} {PS : List (List α)} (h1 : PS ≠ []) (h2 : ∀ p ∈ PS, p ≠ []) :
    PS.flatten ≠ [] := by
  cases PS with
  | nil => exact absurd rfl h1
  | cons p ps =>
      have hp := h2 p (by simp)
      cases p with
      | nil => exact absurd rfl hp
      | cons a as => simp


theorem getLast?_cons_of_ne {α : Type} (a : α) (l : List α) (h : l ≠ []) :
    (a :: l).getLast? = l.getLast? :=
  List.getLast?_append_of_ne_nil [a] h

theorem analyzeSegment_startMs (p : List Token) (i : ℕ) (cid : String) :
    (analyzeSegment p i cid).startMs = (p.headD default).start_ms := rfl

theorem analyzeSegment_endMs (p : List Token) (i : ℕ) (cid : String) :
    (analyzeSegment p i cid).endMs = (p.getLastD default).end_ms := rfl

theorem splitBySentences_pieces_ne (l : List Token) (m : ℕ) (hl : l ≠ []) :
    ∀ p ∈ splitBySentences l m, p ≠ [] := by
  intro p hp
  unfold splitBySentences at hp
  by_cases hseg : (sbsGo m [] 0 l).isEmpty
  · simp [hseg] at hp
    rw [hp]
    exact hl
  · simp [hseg] at hp
    exact sbsGo_ne m l [] 0 p hp

theorem piecesCover (cid : String) (PS : List (List Token)) : ∀ (gi : ℕ),
    PS ≠ [] → (∀ p ∈ PS, p ≠ []) →
    PS.flatten.Chain' (fun a b => a.end_ms ≤ b.start_ms) →
    (∀ t ∈ PS.flatten, t.start_ms ≤ t.end_ms) →
    segsCover ((PS.flatten.headD default).start_ms) ((PS.flatten.getLastD default).end_ms)
      (analyzeListFrom cid gi PS) := by
  induction PS with
  | nil => intro gi h; exact absurd rfl h
  | cons p ps ih =>
      intro gi _ hne hchain hse
      have hp : p ≠ [] := hne p (by simp)
      cases ps with
      | nil =>
          refine ⟨by simp [analyzeListFrom], ?_, ?_, ?_, ?_⟩
          · simp [analyzeListFrom, analyzeSegment_startMs]
          · simp [analyzeListFrom, analyzeSegment_endMs]
          · simp [analyzeListFrom]
          · intro s hs
            simp [analyzeListFrom] at hs
            rw [hs, analyzeSegment_startMs, analyzeSegment_endMs]
            have hflat : (p :: ([] : List (List Token))).flatten = p := by simp
            rw [hflat] at hchain hse
            exact head_le_last_of_chain p hp hchain hse
      | cons q qs =>
          have hF : ((q :: qs) : List (List Token)).flatten ≠ [] :=
            flatten_ne (by simp) (fun x hx => hne x (by simp [hx]))
          have hflat : ((p :: q :: qs) : List (List Token)).flatten
              = p ++ (q :: qs).flatten := by simp
          rw [hflat] at hchain hse ⊢
          have hdec := List.chain'_append.mp hchain
          obtain ⟨hchain_p, hchain_F, hbound⟩ := hdec
          have hse_p : ∀ t ∈ p, t.start_ms ≤ t.end_ms :=
            fun t ht => hse t (List.mem_append.mpr (Or.inl ht))
          have hse_F : ∀ t ∈ (q :: qs).flatten, t.start_ms ≤ t.end_ms :=
            fun t ht => hse t (List.mem_append.mpr (Or.inr ht))
          have hIH := ih (gi + 1) (by simp) (fun x hx => hne x (by simp [hx])) hchain_F hse_F
          obtain ⟨hS'ne, hS'head, hS'last, hS'chain, hS'wf⟩ := hIH
          have hstep : analyzeListFrom cid gi (p :: q :: qs)
              = analyzeSegment p gi cid :: analyzeListFrom cid (gi + 1) (q :: qs) := rfl
          rw [hstep]
          refine ⟨by simp, ?_, ?_, ?_, ?_⟩
          · rw [headD_append_left p _ hp]
            simp [analyzeSegment_startMs]
          · rw [getLast?_cons_of_ne _ _ hS'ne, hS'last, getLastD_append_right p _ hF]
          · rw [List.chain'_cons']
            constructor
            · intro y hy
              rw [head?_eq_headD _ hS'ne] at hy
              have hy' : y = (analyzeListFrom cid (gi + 1) (q :: qs)).headD default := by
                have := hy
                simp at this
                exact this.symm
              rw [head?_eq_headD _ hS'ne] at hS'head
              have hys : y.startMs = (((q :: qs).flatten.headD default)).start_ms := by
                rw [hy']
                simpa using hS'head
              rw [analyzeSegment_endMs, hys]
              have hlastp := getLast?_eq_getLastD p hp
              have hheadF := head?_eq_headD _ hF
              have := hbound (p.getLastD default) (by rw [hlastp]; rfl)
                ((q :: qs).flatten.headD default) (by rw [hheadF]; rfl)
              exact this
            · exact hS'chain
          · intro s hs
            rcases List.mem_cons.mp hs with rfl | hs'
            · rw [analyzeSegment_startMs, analyzeSegment_endMs]
              exact head_le_last_of_chain p hp hchain_p hse_p
            · exact hS'wf s hs'


theorem blockCover (cid : String) (gi : ℕ) (b : List Token) (hb : b ≠ [])
    (hchain : b.Chain' (fun a c => a.end_ms ≤ c.start_ms))
    (hse : ∀ t ∈ b, t.start_ms ≤ t.end_ms) :
    segsCover ((b.headD default).start_ms) ((b.getLastD default).end_ms)
      (analyzeListFrom cid gi (splitBySentences b 4)) := by
  have hfl := splitBySentences_flatten b 4
  have h := piecesCover cid (splitBySentences b 4) gi (splitBySentences_ne b 4)
    (splitBySentences_pieces_ne b 4 hb) (by rw [hfl]; exact hchain) (by rw [hfl]; exact hse)
  rw [hfl] at h
  exact h

theorem interleaveCover (cid : String) (bs : List (List Token)) : ∀ (gi bi : ℕ) (ps : List Pause),
    (∀ b ∈ bs, b ≠ []) →
    bs.flatten.Chain' (fun a b => a.end_ms ≤ b.start_ms) →
    (∀ t ∈ bs.flatten, t.start_ms ≤ t.end_ms) →
    chainLinked bs ps → bs ≠ [] →
    segsCover ((bs.flatten.headD default).start_ms) ((bs.flatten.getLastD default).end_ms)
      (interleave cid gi bi (bs.map (fun b => splitBySentences b 4)) ps) := by
  induction bs with
  | nil => intro gi bi ps _ _ _ _ h; exact absurd rfl h
  | cons b rest ih =>
      intro gi bi ps hne hchain hse hlink _
      have hb : b ≠ [] := hne b (by simp)
      cases rest with
      | nil =>
          cases ps with
          | nil =>
              have hflat : ((b :: []) : List (List Token)).flatten = b := by simp
              rw [hflat] at hchain hse ⊢
              have hcov := blockCover cid gi b hb hchain hse
              have hgo : interleave cid gi bi ((b :: []).map (fun x => splitBySentences x 4)) []
                  = analyzeListFrom cid gi (splitBySentences b 4) := by
                simp [interleave]
              rw [hgo]
              exact hcov
          | cons p ps' => simp [chainLinked] at hlink
      | cons b' rest' =>
          cases ps with
          | nil => simp [chainLinked] at hlink
          | cons p ps' =>
              obtain ⟨⟨hp1, hp2, _, _⟩, hlink'⟩ := hlink
              have hb' : b' ≠ [] := hne b' (by simp)
              have hF : ((b' :: rest') : List (List Token)).flatten ≠ [] :=
                flatten_ne (by simp) (fun x hx => hne x (by simp [hx]))
              have hflat : ((b :: b' :: rest') : List (List Token)).flatten
                  = b ++ (b' :: rest').flatten := by simp
              rw [hflat] at hchain hse ⊢
              obtain ⟨hchain_b, hchain_F, hbound⟩ := List.chain'_append.mp hchain
              have hse_b : ∀ t ∈ b, t.start_ms ≤ t.end_ms :=
                fun t ht => hse t (List.mem_append.mpr (Or.inl ht))
              have hse_F : ∀ t ∈ (b' :: rest').flatten, t.start_ms ≤ t.end_ms :=
                fun t ht => hse t (List.mem_append.mpr (Or.inr ht))
              have hIH := ih (gi + (splitBySentences b 4).length) (bi + 1) ps'
                (fun x hx => hne x (by simp [hx])) hchain_F hse_F hlink' (by simp)
              obtain ⟨hS'ne, hS'head, hS'last, hS'chain, hS'wf⟩ := hIH
              have hcov := blockCover cid gi b hb hchain_b hse_b
              obtain ⟨hPne, hPhead, hPlast, hPchain, hPwf⟩ := hcov
              have hFhead : ((b' :: rest').flatten.headD default)
                  = b'.headD default := by
                have : ((b' :: rest') : List (List Token)).flatten
                    = b' ++ rest'.flatten := by simp
                rw [this, headD_append_left b' _ hb']
              have hcross : (b.getLastD default).end_ms
                  ≤ ((b' :: rest').flatten.headD default).start_ms := by
                exact hbound (b.getLastD default) (by rw [getLast?_eq_getLastD b hb]; rfl)
                  ((b' :: rest').flatten.headD default) (by rw [head?_eq_headD _ hF]; rfl)
              have hgo : interleave cid gi bi
                    ((b :: b' :: rest').map (fun x => splitBySentences x 4)) (p :: ps')
                  = analyzeListFrom cid gi (splitBySentences b 4)
                    ++ (mkPauseSegment cid bi p
                      :: interleave cid (gi + (splitBySentences b 4).length) (bi + 1)
                        ((b' :: rest').map (fun x => splitBySentences x 4)) ps') := rfl
              rw [hgo]
              have hpstart : (mkPauseSegment cid bi p).startMs = (b.getLastD default).end_ms := by
                show p.start = (b.getLastD default).end_ms
                rw [hp1]
              have hpstop : (mkPauseSegment cid bi p).endMs
                  = ((b' :: rest').flatten.headD default).start_ms := by
                show p.stop = ((b' :: rest').flatten.headD default).start_ms
                rw [hp2, hFhead]
              refine ⟨?_, ?_, ?_, ?_, ?_⟩
              · simp [hPne]
              · rw [List.head?_append_of_ne_nil _ hPne, hPhead,
                  headD_append_left b _ hb]
              · rw [List.getLast?_append_of_ne_nil _ (by simp : mkPauseSegment cid bi p
                    :: interleave cid (gi + (splitBySentences b 4).length) (bi + 1)
                      ((b' :: rest').map (fun x => splitBySentences x 4)) ps' ≠ [])]
                rw [getLast?_cons_of_ne _ _ hS'ne, hS'last, getLastD_append_right b _ hF]
              · rw [List.chain'_append]
                refine ⟨hPchain, ?_, ?_⟩
                · rw [List.chain'_cons']
                  constructor
                  · intro y hy
                    rw [Option.mem_def] at hy
                    rw [hy] at hS'head
                    simp only [Option.map_some'] at hS'head
                    have hys : y.startMs = ((b' :: rest').flatten.headD default).start_ms := by
                      exact Option.some.inj hS'head
                    rw [hpstop, hys]
                  · exact hS'chain
                · intro x hx y hy
                  rw [Option.mem_def] at hx hy
                  rw [hx] at hPlast
                  simp only [Option.map_some'] at hPlast
                  have hxe : x.endMs = (b.getLastD default).end_ms := Option.some.inj hPlast
                  have hy' : y = mkPauseSegment cid bi p := by
                    simp only [List.head?_cons] at hy
                    exact (Option.some.inj hy).symm
                  rw [hxe, hy', hpstart]
              · intro s hs
                rcases List.mem_append.mp hs with hs' | hs'
                · exact hPwf s hs'
                · rcases List.mem_cons.mp hs' with rfl | hs''
                  · rw [hpstart, hpstop]
                    exact hcross
                  · exact hS'wf s hs''


/-- Claim C2, amended: for every non-empty, well-formed input token list, the
assembled segment list is non-empty, starts at the first token's `startMs`,
ends at the last token's `endMs`, has non-overlapping consecutive segments
(`endMs ≤` next `startMs`, hence weakly increasing `startMs`), and every
segment has a non-negative extent.  Strict coverage fails (see the
counterexample): sentence splits inside a block can leave gaps, and forced
splits can produce zero-duration pauses. -/
theorem analyzePipeline_cover (cid : String) (tokens : List Token) (hne : tokens ≠ [])
    (hwf : tokensWellFormed tokens) :
    segsCover ((tokens.headD default).start_ms) ((tokens.getLastD default).end_ms)
      (analyzePipeline cid tokens) := by
  have hPne : addPunctuationToTokens tokens ≠ [] := addPunct_ne tokens hne
  obtain ⟨hse, hchain⟩ := addPunct_wf tokens hwf
  cases hPcase : addPunctuationToTokens tokens with
  | nil => exact absurd hPcase hPne
  | cons t rest =>
      have hflat := goSplit_flatten (t :: rest) t.start_ms []
      have hlen := goSplit_length (t :: rest) t.start_ms [] (by simp)
      have hmain := goSplit_main (t :: rest) t.start_ms [] (by simp) (by simp [goSplitPre])
      have hbne := goSplit_blocks_ne (t :: rest) t.start_ms [] (by simp)
      have hbsne : (goSplit t.start_ms [] (t :: rest)).1 ≠ [] := by
        intro hcon
        rw [hcon] at hlen
        simp at hlen
      rw [hPcase] at hse hchain
      have hflat' : (goSplit t.start_ms [] (t :: rest)).1.flatten = t :: rest := by
        simpa using hflat
      have hcover := interleaveCover cid (goSplit t.start_ms [] (t :: rest)).1 0 0
        (goSplit t.start_ms [] (t :: rest)).2 hbne (by rw [hflat']; exact hchain)
        (by rw [hflat']; exact hse) hmain.2 hbsne
      rw [hflat'] at hcover
      have hpipe : analyzePipeline cid tokens
          = interleave cid 0 0
            ((goSplit t.start_ms [] (t :: rest)).1.map (fun b => splitBySentences b 4))
            (goSplit t.start_ms [] (t :: rest)).2 := by
        unfold analyzePipeline
        rw [hPcase]
        rfl
      rw [hpipe]
      have hh : ((t :: rest).headD default).start_ms = (tokens.headD default).start_ms := by
        rw [← hPcase]
        exact addPunct_headD_start tokens
      have hl : ((t :: rest).getLastD default).end_ms = (tokens.getLastD default).end_ms := by
        rw [← hPcase]
        exact addPunct_getLastD_end tokens hne
      rw [hh, hl] at hcover
      exact hcover

/-- Claim C2, amended, witness: the weak coverage property evaluated on
`pauseToks`. -/
theorem analyzePipeline_cover_witness :
    (pauseToks ≠ [] ∧ tokensWellFormed pauseToks)
    ∧ segsCover ((pauseToks.headD default).start_ms) ((pauseToks.getLastD default).end_ms)
        (analyzePipeline "conv" pauseToks) :=
  ⟨⟨by decide, by decide, by unfold pauseToks; exact List.chain'_pair.mpr (by decide)⟩,
   analyzePipeline_cover "conv" pauseToks (by decide)
     ⟨by decide, by unfold pauseToks; exact List.chain'_pair.mpr (by decide)⟩⟩

end Rhetmo
